import Mathlib

/-!
Verification development for the History Store (histore) archive engine.

The repository ships the specification of the archive engine together with
worked examples (Jupyter notebooks with recorded archive states) and the
JSON serialization description (docs/serialize.rst).  The engine itself
(timestamps, multi-version values, the streaming merge, checkout and
rollback) is modelled here from the specification; the recorded notebook
outputs serve as concrete ground truth for the model.
-/

namespace HiStore

/-- Modelled from the spec: a closed interval `[lo, hi]` of version numbers
(histore.archive.timestamp, class TimeInterval; code absent from the
repository snapshot). -/
structure Interval where
  lo : Nat
  hi : Nat
deriving DecidableEq, Repr

/-- Modelled from the spec: a Timestamp is a sorted, coalesced list of closed
integer intervals over version numbers. -/
abbrev Timestamp := List Interval

namespace Timestamp

/-- Modelled from the spec: membership of a version in a timestamp. -/
def contains (t : Timestamp) (v : Nat) : Bool :=
  t.any (fun i => i.lo ≤ v && v ≤ i.hi)

/-- Modelled from the spec: `append v` extends the last interval if it ends at
`v-1`, adds `[v,v]` otherwise, and is idempotent when `v` is in the last
interval already. -/
def append : Timestamp → Nat → Timestamp
  | [], v => [⟨v, v⟩]
  | [i], v =>
    if v ≤ i.hi then [i]
    else if v = i.hi + 1 then [⟨i.lo, v⟩]
    else [i, ⟨v, v⟩]
  | i :: j :: rest, v => i :: append (j :: rest) v

/-- Modelled from the spec: `rollback v` truncates the timestamp to versions
`≤ v`. -/
def rollback : Timestamp → Nat → Timestamp
  | [], _ => []
  | i :: rest, v =>
    if i.hi ≤ v then i :: rollback rest v
    else if i.lo ≤ v then [⟨i.lo, v⟩]
    else []

end Timestamp

/-- Modelled from the spec: the scalar cell values used by the worked
examples (null, integer, text). -/
inductive Scalar where
  | null
  | int (n : Int)
  | text (s : String)
deriving DecidableEq, Repr

namespace Scalar

/-- Rank used to order scalars of different kinds (nulls sort first). -/
def rank : Scalar → Nat
  | .null => 0
  | .int _ => 1
  | .text _ => 2

/-- Lexicographic strict order on character lists (by code point). -/
def charsLt : List Char → List Char → Bool
  | [], [] => false
  | [], _ :: _ => true
  | _ :: _, [] => false
  | c :: cs, d :: ds =>
    if c.toNat < d.toNat then true
    else if d.toNat < c.toNat then false
    else charsLt cs ds

/-- Modelled from the spec: strict order on merge keys (nulls sort before any
non-null; integers and strings by their natural order). -/
def lt : Scalar → Scalar → Bool
  | .int a, .int b => a < b
  | .text a, .text b => charsLt a.toList b.toList
  | a, b => a.rank < b.rank

end Scalar

/-- Modelled from the spec: a TimestampedValue binds a scalar to the
timestamp of the versions in which it held. -/
structure TSValue where
  value : Scalar
  ts : Timestamp
deriving DecidableEq, Repr

/-- Modelled from the spec: a MultiVersionValue is a list of TimestampedValues
with pairwise disjoint timestamps covering the parent timestamp. -/
abbrev MVValue := List TSValue

namespace MVValue

/-- Modelled from the notebook outputs (src/examples): merging a new value at
version `v` appends `v` to the timestamp of the TimestampedValue whose scalar
equals the new value, wherever it occurs in the list, and otherwise appends a
fresh TimestampedValue `(x, [v,v])` at the end.  (The recorded archive rows,
e.g. Alice's Age value `32 [0,2-3]`, show that an equal scalar anywhere in
the list is reused.) -/
def extend (m : MVValue) (x : Scalar) (v : Nat) : MVValue :=
  if m.any (fun tv => tv.value = x) then
    m.map (fun tv => if tv.value = x then ⟨tv.value, tv.ts.append v⟩ else tv)
  else
    m ++ [⟨x, [⟨v, v⟩]⟩]

/-- Modelled from the spec: the literal wording of the spec's `extend`, which
compares the new scalar only against the LAST TimestampedValue of the list,
appending `v` to it on equality and appending `(x, [v,v])` otherwise. -/
def extendSpec : MVValue → Scalar → Nat → MVValue
  | [], x, v => [⟨x, [⟨v, v⟩]⟩]
  | [tv], x, v =>
    if tv.value = x then [⟨tv.value, tv.ts.append v⟩] else [tv, ⟨x, [⟨v, v⟩]⟩]
  | tv :: tv1 :: rest, x, v => tv :: extendSpec (tv1 :: rest) x v

/-- Modelled from the spec: the scalar valid at version `v` (the element whose
timestamp contains `v`; unique by the disjointness invariant). -/
def valueAt (m : MVValue) (v : Nat) : Option Scalar :=
  (m.find? (fun tv => tv.ts.contains v)).map (·.value)

/-- Modelled from the spec: rollback of a MultiVersionValue truncates every
timestamp and drops elements whose timestamp becomes empty. -/
def rollback (m : MVValue) (v : Nat) : MVValue :=
  (m.map (fun tv => ⟨tv.value, tv.ts.rollback v⟩)).filter (fun tv => !tv.ts.isEmpty)

end MVValue

/-- Modelled from the spec: an archive row with stable `rowId`, merge key,
lifetime timestamp, timestamped position history and per-column cell
histories. -/
structure ArchiveRow where
  rowId : Nat
  key : Scalar
  ts : Timestamp
  pos : MVValue
  cells : List (Nat × MVValue)
deriving DecidableEq, Repr

/-- Modelled from the spec: an archive column with stable `colId`, timestamped
name and position histories, and an existence timestamp. -/
structure ArchiveColumn where
  colId : Nat
  name : MVValue
  pos : MVValue
  ts : Timestamp
deriving DecidableEq, Repr

/-- Modelled from the spec: the archive state: schema columns, rows (sorted by
merge key), committed versions, and the id/version counters. -/
structure Archive where
  cols : List ArchiveColumn
  rows : List ArchiveRow
  snapshots : List Nat
  nextRowId : Nat
  nextColId : Nat
  nextVersion : Nat
deriving DecidableEq, Repr

/-- Modelled from the spec: the empty archive. -/
def Archive.empty : Archive := ⟨[], [], [], 0, 0, 0⟩

/-- Modelled from the spec: error kinds raised by the archive facade. -/
inductive HError where
  | schemaError
  | duplicateKeyError
deriving DecidableEq, Repr

/-- Modelled from the spec: one row of a snapshot document after key
extraction: an optional pre-assigned row id, the 0-based snapshot position,
the merge key, and the cell values tagged with archive column ids. -/
structure DocRow where
  rid : Option Nat
  pos : Nat
  key : Scalar
  cells : List (Nat × Scalar)
deriving DecidableEq, Repr

/-- Modelled from the spec: whether an archive column carries the given name
in some version (used by schema alignment by name). -/
def ArchiveColumn.hasName (c : ArchiveColumn) (n : String) : Bool :=
  c.name.any (fun tv => tv.value = Scalar.text n)

/-- Modelled from the spec: extend a matched archive column with version `v`,
name `n` and snapshot position `i`. -/
def extendColumn (c : ArchiveColumn) (n : String) (i v : Nat) : ArchiveColumn :=
  { c with ts := c.ts.append v,
           name := c.name.extend (.text n) v,
           pos := c.pos.extend (.int i) v }

/-- Modelled from the spec: find and extend the first schema column matching a
snapshot column name; return the updated schema and matched column id. -/
def alignColumn (cols : List ArchiveColumn) (n : String) (i v : Nat) :
    Option (List ArchiveColumn × Nat) :=
  match cols with
  | [] => none
  | c :: rest =>
    if c.hasName n then some (extendColumn c n i v :: rest, c.colId)
    else (alignColumn rest n i v).map (fun p => (c :: p.1, p.2))

/-- Modelled from the spec: align the snapshot column names against the
archive schema at version `v`, matching existing columns by name and
allocating fresh column ids otherwise; returns the updated schema, the
column ids of the snapshot columns in snapshot order, and the next free
column id. -/
def alignSchema (cols : List ArchiveColumn) (names : List String)
    (v ncid i : Nat) : List ArchiveColumn × List Nat × Nat :=
  match names with
  | [] => (cols, [], ncid)
  | n :: ns =>
    match alignColumn cols n i v with
    | some (cols1, cid) =>
      let r := alignSchema cols1 ns v ncid (i + 1)
      (r.1, cid :: r.2.1, r.2.2)
    | none =>
      let newCol : ArchiveColumn :=
        ⟨ncid, [⟨.text n, [⟨v, v⟩]⟩], [⟨.int i, [⟨v, v⟩]⟩], [⟨v, v⟩]⟩
      let r := alignSchema (cols ++ [newCol]) ns v (ncid + 1) (i + 1)
      (r.1, ncid :: r.2.1, r.2.2)

/-- Modelled from the spec: a fresh archive row created for a document row
absent from the archive: timestamp `[v,v]`, single-version position, key and
cells. -/
def newRow (id : Nat) (b : DocRow) (v : Nat) : ArchiveRow :=
  { rowId := id, key := b.key, ts := [⟨v, v⟩],
    pos := [⟨.int b.pos, [⟨v, v⟩]⟩],
    cells := b.cells.map (fun p => (p.1, [⟨p.2, [⟨v, v⟩]⟩])) }

/-- Modelled from the spec: update the cell history of column `c` with the new
scalar `x` at version `v`: extend the existing MultiVersionValue, or
initialize a fresh single-version cell when the column is absent. -/
def upsertCell (cells : List (Nat × MVValue)) (c : Nat) (x : Scalar) (v : Nat) :
    List (Nat × MVValue) :=
  match cells with
  | [] => [(c, [⟨x, [⟨v, v⟩]⟩])]
  | p :: rest =>
    if p.1 = c then (p.1, p.2.extend x v) :: rest
    else p :: upsertCell rest c x v

/-- Modelled from the spec: fold the snapshot cell values of one document row
into the archive row's cell map at version `v`. -/
def extendCells (cells : List (Nat × MVValue)) (vals : List (Nat × Scalar))
    (v : Nat) : List (Nat × MVValue) :=
  match vals with
  | [] => cells
  | q :: rest => extendCells (upsertCell cells q.1 q.2 v) rest v

/-- Modelled from the spec: the equal-keys case of the merge: append `v` to
the row timestamp, extend the position history with the snapshot position,
and extend every cell present in the snapshot. -/
def updateRow (a : ArchiveRow) (b : DocRow) (v : Nat) : ArchiveRow :=
  { a with ts := a.ts.append v,
           pos := a.pos.extend (.int b.pos) v,
           cells := extendCells a.cells b.cells v }

/-- Modelled from the spec: the streaming outer join of the archive row stream
(sorted by merge key) with the snapshot document stream (sorted by key) at
version `v`; `nid` is the next free row id for fresh rows.  The first
argument is computation fuel, always supplied as the total length of the two
streams (each step consumes one element of one stream). -/
def mergeRowsF (v : Nat) : Nat → List ArchiveRow → List DocRow → Nat →
    List ArchiveRow × Nat
  | 0, as, _, nid => (as, nid)
  | _ + 1, as, [], nid => (as, nid)
  | f + 1, [], b :: bs, nid =>
    let id := b.rid.getD nid
    let nid1 := if b.rid.isNone then nid + 1 else nid
    let r := mergeRowsF v f [] bs nid1
    (newRow id b v :: r.1, r.2)
  | f + 1, a :: as, b :: bs, nid =>
    if Scalar.lt a.key b.key then
      let r := mergeRowsF v f as (b :: bs) nid
      (a :: r.1, r.2)
    else if Scalar.lt b.key a.key then
      let id := b.rid.getD nid
      let nid1 := if b.rid.isNone then nid + 1 else nid
      let r := mergeRowsF v f (a :: as) bs nid1
      (newRow id b v :: r.1, r.2)
    else
      let r := mergeRowsF v f as bs nid
      (updateRow a b v :: r.1, r.2)

/-- Modelled from the spec: the streaming merge of the two sorted streams,
with exactly enough fuel to drain both. -/
def mergeRows (v : Nat) (as : List ArchiveRow) (bs : List DocRow) (nid : Nat) :
    List ArchiveRow × Nat :=
  mergeRowsF v (as.length + bs.length) as bs nid

/-- Document rows ordered by ascending merge key (the merge precondition). -/
def docKeyLE (a b : DocRow) : Prop := Scalar.lt b.key a.key = false

instance : DecidableRel docKeyLE :=
  fun a b => inferInstanceAs (Decidable (Scalar.lt b.key a.key = false))

/-- Modelled from the spec: build the document rows of a keyed commit from a
table: position is the 0-based table position, the key is the scalar under
the key column, and cells pair the aligned column ids with the row values. -/
def keyedDocRows (tbl : List (List Scalar)) (colIds : List Nat) (kIdx : Nat) :
    List DocRow :=
  tbl.enum.map (fun p =>
    { rid := none, pos := p.1, key := p.2.getD kIdx Scalar.null,
      cells := colIds.zip p.2 })

/-- Modelled from the spec: commit a snapshot table into a keyed archive.
The key column is located by name (SchemaError when missing), the schema is
aligned, duplicate keys in the snapshot are fatal (DuplicateKeyError), the
document is sorted by key and merged with the archive row stream, and the
version counters and snapshot listing are advanced. -/
def commitKeyed (A : Archive) (names : List String) (keyName : String)
    (tbl : List (List Scalar)) : Except HError Archive :=
  match names.indexOf? keyName with
  | none => .error .schemaError
  | some kIdx =>
    let v := A.nextVersion
    let al := alignSchema A.cols names v A.nextColId 0
    let doc := keyedDocRows tbl al.2.1 kIdx
    if (doc.map (·.key)).Nodup then
      let sorted := doc.insertionSort docKeyLE
      let m := mergeRows v A.rows sorted A.nextRowId
      .ok { cols := al.1, rows := m.1, snapshots := A.snapshots ++ [v],
            nextRowId := m.2, nextColId := al.2.2, nextVersion := v + 1 }
    else .error .duplicateKeyError

/-- Modelled from the spec: the facade around a keyed commit: on any error the
archive state is left exactly as it was before the call. -/
def tryCommitKeyed (A : Archive) (names : List String) (keyName : String)
    (tbl : List (List Scalar)) : Archive :=
  match commitKeyed A names keyName tbl with
  | .ok A1 => A1
  | .error _ => A

/-- Modelled from the spec: build the document rows of an un-keyed commit.
Each table row carries an optional row index; a row with an index keeps it as
merge key and row id, a row with a null index is new and receives a fresh row
id (which also becomes its key), even if an identical row already exists. -/
def unkeyedDocRows (tbl : List (Option Nat × List Scalar)) (colIds : List Nat)
    (pos nid : Nat) : List DocRow × Nat :=
  match tbl with
  | [] => ([], nid)
  | (idx, vals) :: rest =>
    let id := idx.getD nid
    let nid1 := if idx.isNone then nid + 1 else nid
    let r := unkeyedDocRows rest colIds (pos + 1) nid1
    ({ rid := some id, pos := pos, key := .int id,
       cells := colIds.zip vals } :: r.1, r.2)

/-- Modelled from the spec: the first row id that is fresh with respect to
both the archive's id counter and every row index supplied by the document
(a fresh id must differ from every existing id). -/
def freshBase (nid : Nat) (tbl : List (Option Nat × List Scalar)) : Nat :=
  tbl.foldl (fun acc p =>
    match p.1 with
    | some i => max acc (i + 1)
    | none => acc) nid

/-- Modelled from the spec: commit a snapshot into an un-keyed archive: the
merge key is the row index, rows with a null index are allocated fresh row
ids, the document is sorted by key and merged with the archive rows (which
are sorted by row id). -/
def commitUnkeyed (A : Archive) (names : List String)
    (tbl : List (Option Nat × List Scalar)) : Archive :=
  let v := A.nextVersion
  let al := alignSchema A.cols names v A.nextColId 0
  let d := unkeyedDocRows tbl al.2.1 0 (freshBase A.nextRowId tbl)
  let sorted := d.1.insertionSort docKeyLE
  let m := mergeRows v A.rows sorted d.2
  { cols := al.1, rows := m.1, snapshots := A.snapshots ++ [v],
    nextRowId := max d.2 m.2, nextColId := al.2.2, nextVersion := v + 1 }

/-- Modelled from the spec: one row of a checked-out snapshot: the stable row
identifier, the row's position at the version, and the cell values under the
live columns. -/
structure OutRow where
  rowId : Nat
  pos : Int
  values : List Scalar
deriving DecidableEq, Repr

/-- The integer position recorded for a value extracted at a version. -/
def Scalar.toInt : Scalar → Int
  | .int n => n
  | _ => 0

/-- Checked-out rows ordered by ascending extracted position. -/
def outPosLE (a b : OutRow) : Prop := a.pos ≤ b.pos

instance : DecidableRel outPosLE :=
  fun a b => inferInstanceAs (Decidable (a.pos ≤ b.pos))

instance : IsTotal OutRow outPosLE := ⟨fun a b => le_total a.pos b.pos⟩

instance : IsTrans OutRow outPosLE :=
  ⟨fun _ _ _ h1 h2 => le_trans h1 h2⟩

/-- Live columns ordered by ascending position at the checked-out version. -/
def colPosLE (v : Nat) (a b : ArchiveColumn) : Prop :=
  ((a.pos.valueAt v).getD .null).toInt ≤ ((b.pos.valueAt v).getD .null).toInt

instance (v : Nat) : DecidableRel (colPosLE v) :=
  fun a b => inferInstanceAs
    (Decidable (((a.pos.valueAt v).getD .null).toInt ≤
      ((b.pos.valueAt v).getD .null).toInt))

/-- Modelled from the spec: the ids of the given columns that are live at
version `v`, in ascending order of their position at `v`. -/
def liveIdsOfCols (cols : List ArchiveColumn) (v : Nat) : List Nat :=
  (((cols.filter (fun c => c.ts.contains v)).insertionSort
    (colPosLE v)).map (·.colId))

/-- Modelled from the spec: the ids of the columns live at version `v`, in
ascending order of their position at `v`. -/
def Archive.liveColIds (A : Archive) (v : Nat) : List Nat :=
  liveIdsOfCols A.cols v

/-- The name carried by an archive column at version `v`. -/
def colNameAt (c : ArchiveColumn) (v : Nat) : String :=
  match c.name.valueAt v with
  | some (.text s) => s
  | _ => ""

/-- Modelled from the spec: the names of the columns live at version `v`, in
ascending order of their position at `v`. -/
def Archive.liveColNames (A : Archive) (v : Nat) : List String :=
  (((A.cols.filter (fun c => c.ts.contains v)).insertionSort
    (colPosLE v)).map (fun c => colNameAt c v))

/-- Modelled from the spec: extract the snapshot row of an archive row at
version `v`: the scalar of each position/cell MultiVersionValue whose
timestamp contains `v` (a missing cell for a live column is null). -/
def rowAt (r : ArchiveRow) (colIds : List Nat) (v : Nat) : OutRow :=
  { rowId := r.rowId,
    pos := ((r.pos.valueAt v).getD .null).toInt,
    values := colIds.map (fun c =>
      (((r.cells.lookup c).getD []).valueAt v).getD .null) }

/-- Modelled from the spec: checkout at version `v` streams the rows whose
timestamp contains `v`, extracts position and cell scalars at `v`, and orders
the result by extracted position ascending. -/
def Archive.checkoutRows (A : Archive) (v : Nat) : List OutRow :=
  (((A.rows.filter (fun r => r.ts.contains v)).map
    (fun r => rowAt r (A.liveColIds v) v)).insertionSort outPosLE)

/-- Modelled from the spec: the checked-out table: row identifiers (the table
index) paired with the cell values, in position order. -/
def Archive.checkout (A : Archive) (v : Nat) : List (Nat × List Scalar) :=
  (A.checkoutRows v).map (fun o => (o.rowId, o.values))

/-- Modelled from the spec: rollback of an archive row truncates all its
timestamps to versions `≤ v`. -/
def ArchiveRow.rollback (r : ArchiveRow) (v : Nat) : ArchiveRow :=
  { r with ts := r.ts.rollback v,
           pos := r.pos.rollback v,
           cells := r.cells.map (fun p => (p.1, p.2.rollback v)) }

/-- Modelled from the spec: rollback of an archive column truncates all its
timestamps to versions `≤ v`. -/
def ArchiveColumn.rollback (c : ArchiveColumn) (v : Nat) : ArchiveColumn :=
  { c with ts := c.ts.rollback v,
           name := c.name.rollback v,
           pos := c.pos.rollback v }

/-- Modelled from the spec: `rollback v` sets `next_version := v+1`, truncates
every timestamp in the archive to versions `≤ v`, removes rows and columns
whose truncated timestamp is empty, and removes all snapshots above `v`. -/
def Archive.rollback (A : Archive) (v : Nat) : Archive :=
  { cols := (A.cols.map (fun c => c.rollback v)).filter
      (fun c => !c.ts.isEmpty),
    rows := (A.rows.map (fun r => r.rollback v)).filter
      (fun r => !r.ts.isEmpty),
    snapshots := A.snapshots.filter (fun w => w ≤ v),
    nextRowId := A.nextRowId, nextColId := A.nextColId,
    nextVersion := v + 1 }

/-! Concrete scenarios recorded in the repository's example notebooks. -/

/-- Shorthand for a text scalar. -/
def t (s : String) : Scalar := .text s

/-- Shorthand for an integer scalar. -/
def n (k : Int) : Scalar := .int k

/-- The four snapshot tables of the primary-key worked example
(src/examples, Merge Example (Primary Key)). -/
def snapA : List (List (List Scalar)) :=
  [[[t "Alice", n 32], [t "Bob", n 45], [t "Claire", n 27], [t "Dave", n 23]],
   [[t "Alice", n 33], [t "Bob", n 44], [t "Claire", n 27], [t "Dave", n 23]],
   [[t "Alice", n 32], [t "Bob", n 44], [t "Claire", n 27], [t "Eve", n 27]],
   [[t "Eve", n 27], [t "Claire", n 28], [t "Bob", n 44], [t "Alice", n 32]]]

/-- The archive of the primary-key worked example: the four snapshots
committed in order into an archive keyed by the Name column. -/
def scenarioA : Archive :=
  snapA.foldl (fun A tb => tryCommitKeyed A ["Name", "Age"] "Name" tb)
    Archive.empty

/-- The five snapshots of the row-index worked example
(src/examples, Merge Example (Row Index)): row index paired with values. -/
def snapB : List (List (Option Nat × List Scalar)) :=
  [[(some 0, [t "Alice", n 32]), (some 1, [t "Bob", n 45]),
    (some 2, [t "Claire", n 27]), (some 3, [t "Alice", n 23])],
   [(some 0, [t "Alice", n 32]), (some 1, [t "Bob", n 44]),
    (some 2, [t "Claire", n 27]), (some 3, [t "Dave", n 23])],
   [(some 3, [t "Dave", n 33]), (some 2, [t "Claire", n 27]),
    (some 1, [t "Bob", n 44]), (some 0, [t "Alice", n 32])],
   [(some 0, [t "Alice", n 32]), (none, [t "Eve", n 25]),
    (some 2, [t "Claire", n 27]), (some 1, [t "Bob", n 44])],
   [(some 0, [t "Alice", n 31]), (some 4, [t "Eve", n 25]),
    (some 2, [t "Claire", n 27]), (some 1, [t "Bob", n 44]),
    (some 3, [t "Dave", n 34])]]

/-- The archive of the row-index worked example: the five snapshots committed
in order into an un-keyed archive. -/
def scenarioB : Archive :=
  snapB.foldl (fun A tb => commitUnkeyed A ["Name", "Age"] tb) Archive.empty

/-- Scenario C of the spec, before the rollback: an un-keyed archive holding
the commits of `[(A,1)]` and then `[(A,1),(B,2)]`. -/
def scenarioCPre : Archive :=
  commitUnkeyed
    (commitUnkeyed Archive.empty ["c0", "c1"] [(some 0, [t "A", n 1])])
    ["c0", "c1"]
    [(some 0, [t "A", n 1]), (some 1, [t "B", n 2])]

/-- Scenario C of the spec: the archive after `rollback 0`. -/
def scenarioC : Archive := scenarioCPre.rollback 0

/-- Scenario D of the spec: an archive keyed by column `k` into which a
snapshot with duplicate key `A` is committed. -/
def scenarioD : Archive :=
  tryCommitKeyed Archive.empty ["k", "v"] "k" [[t "A", n 1], [t "A", n 2]]

/-- The archive of the primary-key worked example after its first `k`
snapshots. -/
def scenarioAafter (k : Nat) : Archive :=
  (snapA.take k).foldl (fun A tb => tryCommitKeyed A ["Name", "Age"] "Name" tb)
    Archive.empty

/-- A placeholder archive row (used as the default of partial lookups). -/
def noRow : ArchiveRow := ⟨0, .null, [], [], []⟩

/-- The archive row with the given key, if any. -/
def Archive.rowWithKey (A : Archive) (k : Scalar) : ArchiveRow :=
  (A.rows.find? (fun r => r.key = k)).getD noRow

/-- The cell history of a given column of a row. -/
def ArchiveRow.cellOf (r : ArchiveRow) (c : Nat) : MVValue :=
  (r.cells.lookup c).getD []

/-- The Alice row recorded in the primary-key notebook's reader output:
id 0, key Alice, timestamp `[0-3]`, position `(0 [0-2], 3 [3])`,
Name `(Alice [0-3])`, Age `(32 [0,2-3], 33 [1])`. -/
def aliceRecorded : ArchiveRow :=
  { rowId := 0, key := t "Alice", ts := [⟨0, 3⟩],
    pos := [⟨n 0, [⟨0, 2⟩]⟩, ⟨n 3, [⟨3, 3⟩]⟩],
    cells := [(0, [⟨t "Alice", [⟨0, 3⟩]⟩]),
              (1, [⟨n 32, [⟨0, 0⟩, ⟨2, 3⟩]⟩, ⟨n 33, [⟨1, 1⟩]⟩])] }

/-- A commit step applied to an archive: a keyed commit (column names, key
column name, table) or an un-keyed commit (column names, indexed table). -/
inductive CommitOp where
  | keyed (names : List String) (keyName : String) (tbl : List (List Scalar))
  | unkeyed (names : List String) (tbl : List (Option Nat × List Scalar))

/-- Apply one commit step through the facade (a failing keyed commit leaves
the archive unchanged). -/
def applyOp (A : Archive) : CommitOp → Archive
  | .keyed names keyName tbl => tryCommitKeyed A names keyName tbl
  | .unkeyed names tbl => commitUnkeyed A names tbl

/-- The scalars of the TimestampedValues of a MultiVersionValue are pairwise
distinct. -/
def MVValue.scalarsNodup (m : MVValue) : Prop := (m.map (·.value)).Nodup

/-- Every cell history in a cell map has pairwise distinct scalars. -/
def cellsOk (cells : List (Nat × MVValue)) : Prop :=
  ∀ p ∈ cells, MVValue.scalarsNodup p.2

/-- The position history and every cell history of an archive row have
pairwise distinct scalars. -/
def rowOk (r : ArchiveRow) : Prop :=
  r.pos.scalarsNodup ∧ cellsOk r.cells

/-- Modelled from the spec: the round-trip operation: commit the checked-out
snapshot of version `v`, unchanged, as a new version, into the keyed archive
whose primary key column is named `kname`. -/
def recommit (A : Archive) (kname : String) (v : Nat) : Except HError Archive :=
  commitKeyed A (A.liveColNames v) kname ((A.checkoutRows v).map (·.values))

/-- The document of the round-trip commit: the checked-out table of version
`v` turned into keyed document rows. -/
def docOf (A : Archive) (v kIdx : Nat) : List DocRow :=
  keyedDocRows ((A.checkoutRows v).map (·.values)) (A.liveColIds v) kIdx

/-- The round-trip document sorted by merge key. -/
def sortedDocOf (A : Archive) (v kIdx : Nat) : List DocRow :=
  (docOf A v kIdx).insertionSort docKeyLE

/-- The in-place update applied to each archive row by the round-trip
merge. -/
def updOf (A : Archive) (v kIdx : Nat) (a : ArchiveRow) : ArchiveRow :=
  match (sortedDocOf A v kIdx).find? (fun b => decide (b.key = a.key)) with
  | some b => updateRow a b A.nextVersion
  | none => a

/-- Every interval of the timestamp is well-formed (lower bound at most the
upper bound) and ends strictly below `N`. -/
def tsBelow (ts : Timestamp) (N : Nat) : Bool :=
  ts.all (fun i => i.lo ≤ i.hi && i.hi < N)

/-- Every timestamp of the MultiVersionValue stays strictly below `N`. -/
def mvBelow (m : MVValue) (N : Nat) : Bool :=
  m.all (fun tv => tsBelow tv.ts N)

/-- Every timestamp of the archive row stays strictly below `N`. -/
def rowBelow (r : ArchiveRow) (N : Nat) : Bool :=
  tsBelow r.ts N && mvBelow r.pos N && r.cells.all (fun p => mvBelow p.2 N)

/-- The well-formedness preconditions of the keyed round-trip at version `v`
(key column index `kIdx`): rows sorted strictly by key, all timestamps below
the next version, the live column ids distinct and recovered unchanged by
schema alignment of the live column names (also at the new version), the key
column found at `kIdx` with every live row's extracted key-column value equal
to its merge key, every live row carrying a cell with a value at `v` for
every live column, and the live rows' cell ids distinct. -/
def C7Pre (A : Archive) (kname : String) (v kIdx : Nat) : Prop :=
  A.rows.Pairwise (fun a b => Scalar.lt a.key b.key = true) ∧
  (∀ r ∈ A.rows, rowBelow r A.nextVersion = true) ∧
  (A.liveColIds v).Nodup ∧
  (alignSchema A.cols (A.liveColNames v) A.nextVersion A.nextColId 0).2.1 =
    A.liveColIds v ∧
  liveIdsOfCols
    (alignSchema A.cols (A.liveColNames v) A.nextVersion A.nextColId 0).1
    A.nextVersion = A.liveColIds v ∧
  (A.liveColNames v).indexOf? kname = some kIdx ∧
  (∀ r ∈ A.rows, r.ts.contains v = true →
    (rowAt r (A.liveColIds v) v).values.getD kIdx Scalar.null = r.key) ∧
  (∀ r ∈ A.rows, r.ts.contains v = true →
    (r.cells.map Prod.fst).Nodup ∧
    ∀ c ∈ A.liveColIds v, c ∈ r.cells.map Prod.fst ∧
      (((r.cells.lookup c).getD []).valueAt v).isSome = true)

instance : DecidableRel
    (fun (a b : ArchiveRow) => Scalar.lt a.key b.key = true) :=
  fun a b => inferInstanceAs (Decidable (Scalar.lt a.key b.key = true))

instance (A : Archive) (kname : String) (v kIdx : Nat) :
    Decidable (C7Pre A kname v kIdx) := by
  unfold C7Pre
  infer_instance

/-- A JSON value (the shape of the persisted serialization). -/
inductive Json where
  | jnull
  | jint (k : Int)
  | jstr (s : String)
  | jarr (xs : List Json)
  | jobj (fields : List (String × Json))

/-- Modelled from the spec: a TIMESTAMP serializes as an array of
`[lo, hi]` pairs. -/
def serializeTimestamp (ts : Timestamp) : Json :=
  .jarr (ts.map (fun i => .jarr [.jint i.lo, .jint i.hi]))

/-- Modelled from the spec: scalars serialize as the corresponding JSON
scalar. -/
def serializeScalar : Scalar → Json
  | .null => .jnull
  | .int k => .jint k
  | .text s => .jstr s

/-- Modelled from the spec: a SINGLE-VALUE serializes as an object with the
scalar under `v`, and with its timestamp under `t` only when it differs from
the parent element's timestamp. -/
def serializeSingle (parent : Timestamp) (tv : TSValue) : Json :=
  if tv.ts = parent then .jobj [("v", serializeScalar tv.value)]
  else .jobj [("t", serializeTimestamp tv.ts), ("v", serializeScalar tv.value)]

/-- Modelled from the spec: a MultiVersionValue with a single version
serializes as a SINGLE-VALUE object, and one with several versions as a
MULTI-VALUE array of SINGLE-VALUE objects. -/
def serializeValue (parent : Timestamp) (m : MVValue) : Json :=
  match m with
  | [tv] => serializeSingle parent tv
  | _ => .jarr (m.map (serializeSingle parent))

/-- Modelled from the spec: an archive row record with fields `r` (row id),
`t` (timestamp), `p` (position), `c` (cells keyed by column id) and `k`
(key). -/
def serializeRow (r : ArchiveRow) : Json :=
  .jobj [("r", .jint r.rowId), ("t", serializeTimestamp r.ts),
         ("p", serializeValue r.ts r.pos),
         ("c", .jobj (r.cells.map
           (fun p => (toString p.1, serializeValue r.ts p.2)))),
         ("k", serializeScalar r.key)]

/-! Supporting lemmas. -/

theorem Scalar.charsLt_irrefl : ∀ l, Scalar.charsLt l l = false
  | [] => rfl
  | c :: cs => by simp [Scalar.charsLt, Scalar.charsLt_irrefl cs]

theorem Scalar.lt_irrefl (s : Scalar) : Scalar.lt s s = false := by
  cases s <;> simp [Scalar.lt, Scalar.charsLt_irrefl]

/-- When the column is present in the cell map (ids being unique), the cell
update replaces exactly that column's history with its `extend`. -/
theorem upsertCell_of_mem (c : Nat) (x : Scalar) (v : Nat) :
    ∀ (cells : List (Nat × MVValue)) (m : MVValue),
      (cells.map Prod.fst).Nodup → (c, m) ∈ cells →
      upsertCell cells c x v =
        cells.map (fun p => if p.1 = c then (p.1, p.2.extend x v) else p) := by
  intro cells
  induction cells with
  | nil => intro m _ hm; cases hm
  | cons p rest ih =>
    intro m hnd hm
    obtain ⟨c0, m0⟩ := p
    have hnd1 : (∀ (y : MVValue), (c0, y) ∉ rest) ∧
        (rest.map Prod.fst).Nodup := by simpa using hnd
    rcases List.mem_cons.mp hm with heq | hmem
    · injection heq with h1 h2
      subst h1; subst h2
      have hrest : rest.map
          (fun q => if q.1 = c then (q.1, q.2.extend x v) else q) = rest := by
        have hcg : ∀ q ∈ rest,
            (if q.1 = c then (q.1, q.2.extend x v) else q) = q := by
          intro q hq
          obtain ⟨q1, q2⟩ := q
          have hqc : q1 ≠ c := by
            intro hc
            subst hc
            exact hnd1.1 q2 hq
          simp [hqc]
        simpa using List.map_congr_left hcg
      simp [upsertCell, hrest]
    · have hc0 : c0 ≠ c := by
        intro hc
        subst hc
        exact hnd1.1 m hmem
      simp only [upsertCell, if_neg hc0]
      rw [ih m hnd1.2 hmem]
      simp [hc0]

/-- When the column is absent from the cell map, the cell update appends a
fresh single-version cell at the end. -/
theorem upsertCell_of_notMem (c : Nat) (x : Scalar) (v : Nat) :
    ∀ (cells : List (Nat × MVValue)), c ∉ cells.map Prod.fst →
      upsertCell cells c x v = cells ++ [(c, [⟨x, [⟨v, v⟩]⟩])] := by
  intro cells
  induction cells with
  | nil => intro _; rfl
  | cons p rest ih =>
    intro h
    have h1 : p.1 ≠ c := by
      intro hc
      exact h (by simp [hc])
    have h2 : c ∉ rest.map Prod.fst := by
      intro hc
      exact h (by simp [hc])
    simp [upsertCell, h1, ih h2]

/-- When the new scalar occurs in the MultiVersionValue, `extend` appends the
version to the timestamp of that occurrence, wherever it is in the list. -/
theorem MVValue.extend_of_mem (m : MVValue) (x : Scalar) (v : Nat)
    (h : x ∈ m.map (·.value)) :
    m.extend x v =
      m.map (fun tv => if tv.value = x then ⟨tv.value, tv.ts.append v⟩
        else tv) := by
  have hc : m.any (fun tv => decide (tv.value = x)) = true := by
    simp only [List.any_eq_true, decide_eq_true_eq]
    obtain ⟨tv, htv, hval⟩ := List.mem_map.mp h
    exact ⟨tv, htv, hval⟩
  simp [MVValue.extend, hc]

/-- When the new scalar occurs nowhere in the MultiVersionValue, `extend`
appends a fresh single-version TimestampedValue at the end. -/
theorem MVValue.extend_of_notMem (m : MVValue) (x : Scalar) (v : Nat)
    (h : x ∉ m.map (·.value)) :
    m.extend x v = m ++ [⟨x, [⟨v, v⟩]⟩] := by
  have hc : m.any (fun tv => decide (tv.value = x)) = false := by
    simp only [List.any_eq_false, decide_eq_true_eq]
    intro tv htv hval
    exact h (List.mem_map.mpr ⟨tv, htv, hval⟩)
  simp [MVValue.extend, hc]

/-- Re-using an existing scalar leaves the scalar list of a
MultiVersionValue unchanged. -/
theorem MVValue.map_value_extend_of_mem (m : MVValue) (x : Scalar) (v : Nat)
    (h : x ∈ m.map (·.value)) :
    (m.extend x v).map (·.value) = m.map (·.value) := by
  rw [MVValue.extend_of_mem m x v h, List.map_map]
  apply List.map_congr_left
  intro tv _
  by_cases htv : tv.value = x <;> simp [htv]

/-- The merge-time `extend` preserves distinctness of the scalars of a
MultiVersionValue. -/
theorem MVValue.extend_scalarsNodup (m : MVValue) (x : Scalar) (v : Nat)
    (h : m.scalarsNodup) : (m.extend x v).scalarsNodup := by
  by_cases hx : x ∈ m.map (·.value)
  · unfold MVValue.scalarsNodup
    rw [MVValue.map_value_extend_of_mem m x v hx]
    exact h
  · unfold MVValue.scalarsNodup
    rw [MVValue.extend_of_notMem m x v hx]
    simp only [List.map_append, List.map_cons, List.map_nil]
    exact List.Nodup.append h (List.nodup_singleton x)
      (fun y hy hxy => hx ((List.mem_singleton.mp hxy) ▸ hy))

/-- The cell update preserves distinctness of scalars in every cell
history. -/
theorem upsertCell_cellsOk (c : Nat) (x : Scalar) (v : Nat) :
    ∀ (cells : List (Nat × MVValue)), cellsOk cells →
      cellsOk (upsertCell cells c x v) := by
  intro cells
  induction cells with
  | nil =>
    intro _ p hp
    simp only [upsertCell, List.mem_singleton] at hp
    subst hp
    simp [MVValue.scalarsNodup]
  | cons q rest ih =>
    intro h p hp
    by_cases hq : q.1 = c
    · simp only [upsertCell, if_pos hq] at hp
      rcases List.mem_cons.mp hp with heq | hmem
      · subst heq
        exact MVValue.extend_scalarsNodup q.2 x v (h q (List.mem_cons_self q rest))
      · exact h p (List.mem_cons_of_mem q hmem)
    · simp only [upsertCell, if_neg hq] at hp
      rcases List.mem_cons.mp hp with heq | hmem
      · subst heq
        exact h p (List.mem_cons_self p rest)
      · exact ih (fun r hr => h r (List.mem_cons_of_mem q hr)) p hmem

/-- Folding a document row's cells into a cell map preserves distinctness of
scalars in every cell history. -/
theorem extendCells_cellsOk (v : Nat) :
    ∀ (vals : List (Nat × Scalar)) (cells : List (Nat × MVValue)),
      cellsOk cells → cellsOk (extendCells cells vals v) := by
  intro vals
  induction vals with
  | nil => intro cells h; exact h
  | cons q rest ih =>
    intro cells h
    exact ih (upsertCell cells q.1 q.2 v) (upsertCell_cellsOk q.1 q.2 v cells h)

/-- The equal-keys row update preserves the distinct-scalars invariant. -/
theorem updateRow_rowOk (a : ArchiveRow) (b : DocRow) (v : Nat)
    (h : rowOk a) : rowOk (updateRow a b v) :=
  ⟨MVValue.extend_scalarsNodup a.pos (.int b.pos) v h.1,
   extendCells_cellsOk v b.cells a.cells h.2⟩

/-- A freshly created archive row satisfies the distinct-scalars
invariant. -/
theorem newRow_rowOk (id : Nat) (b : DocRow) (v : Nat) : rowOk (newRow id b v) := by
  refine ⟨by simp [MVValue.scalarsNodup, newRow], ?_⟩
  intro p hp
  simp only [newRow, List.mem_map] at hp
  obtain ⟨q, _, rfl⟩ := hp
  simp [MVValue.scalarsNodup]

/-- Every row emitted by the streaming merge satisfies the distinct-scalars
invariant when every input archive row does. -/
theorem mergeRowsF_rowOk (v : Nat) :
    ∀ (f : Nat) (as : List ArchiveRow) (bs : List DocRow) (nid : Nat),
      (∀ a ∈ as, rowOk a) →
      ∀ r ∈ (mergeRowsF v f as bs nid).1, rowOk r := by
  intro f
  induction f with
  | zero => intro as bs nid h r hr; exact h r hr
  | succ f ih =>
    intro as bs nid h r hr
    cases bs with
    | nil =>
      simp only [mergeRowsF] at hr
      exact h r hr
    | cons b bs =>
      cases as with
      | nil =>
        simp only [mergeRowsF] at hr
        rcases List.mem_cons.mp hr with heq | hmem
        · subst heq; exact newRow_rowOk _ b v
        · exact ih [] bs _ (fun a ha => absurd ha (List.not_mem_nil a)) r hmem
      | cons a as =>
        simp only [mergeRowsF] at hr
        by_cases h1 : Scalar.lt a.key b.key
        · rw [if_pos (by simpa using h1)] at hr
          rcases List.mem_cons.mp hr with heq | hmem
          · subst heq; exact h _ (List.mem_cons_self _ _)
          · exact ih as (b :: bs) nid
              (fun x hx => h x (List.mem_cons_of_mem a hx)) r hmem
        · rw [if_neg (by simpa using h1)] at hr
          by_cases h2 : Scalar.lt b.key a.key
          · rw [if_pos (by simpa using h2)] at hr
            rcases List.mem_cons.mp hr with heq | hmem
            · subst heq; exact newRow_rowOk _ b v
            · exact ih (a :: as) bs _ h r hmem
          · rw [if_neg (by simpa using h2)] at hr
            rcases List.mem_cons.mp hr with heq | hmem
            · subst heq
              exact updateRow_rowOk a b v (h a (List.mem_cons_self a as))
            · exact ih as bs nid
                (fun x hx => h x (List.mem_cons_of_mem a hx)) r hmem

/-- Every commit step preserves the distinct-scalars invariant of all
archive rows. -/
theorem applyOp_rowOk (A : Archive) (op : CommitOp)
    (h : ∀ r ∈ A.rows, rowOk r) : ∀ r ∈ (applyOp A op).rows, rowOk r := by
  cases op with
  | keyed names keyName tbl =>
    simp only [applyOp, tryCommitKeyed]
    cases hc : commitKeyed A names keyName tbl with
    | error e => exact h
    | ok A1 =>
      intro r hr
      simp only [commitKeyed] at hc
      split at hc
      · cases hc
      · split at hc
        · injection hc with hc
          subst hc
          exact mergeRowsF_rowOk A.nextVersion _ A.rows _ A.nextRowId h r hr
        · cases hc
  | unkeyed names tbl =>
    simp only [applyOp, commitUnkeyed]
    intro r hr
    exact mergeRowsF_rowOk A.nextVersion _ A.rows _ _ h r hr

/-- Every version surviving a timestamp rollback is at most the rollback
version. -/
theorem Timestamp.rollback_le :
    ∀ (ts : Timestamp) (v w : Nat), (ts.rollback v).contains w = true → w ≤ v := by
  intro ts
  induction ts with
  | nil => intro v w h; simp [Timestamp.rollback, Timestamp.contains] at h
  | cons i rest ih =>
    intro v w h
    simp only [Timestamp.rollback] at h
    by_cases h1 : i.hi ≤ v
    · rw [if_pos h1] at h
      simp only [Timestamp.contains, List.any_cons, Bool.or_eq_true] at h
      rcases h with h | h
      · simp only [Bool.and_eq_true, decide_eq_true_eq] at h
        exact h.2.trans h1
      · exact ih v w h
    · rw [if_neg h1] at h
      by_cases h2 : i.lo ≤ v
      · rw [if_pos h2] at h
        simp [Timestamp.contains] at h
        exact h.2
      · rw [if_neg h2] at h
        simp [Timestamp.contains] at h

/-- A `find?` over a list returns the designated element when it satisfies
the predicate and is the only member doing so. -/
theorem find?_unique {α : Type} (p : α → Bool) :
    ∀ (l : List α) (x : α), x ∈ l → p x = true →
      (∀ y ∈ l, p y = true → y = x) → l.find? p = some x := by
  intro l
  induction l with
  | nil => intro x hx; cases hx
  | cons a rest ih =>
    intro x hx hp huniq
    by_cases ha : p a = true
    · rw [List.find?_cons_of_pos rest ha,
        huniq a (List.mem_cons_self a rest) ha]
    · rcases List.mem_cons.mp hx with heq | hmem
      · subst heq; exact absurd hp ha
      · rw [List.find?_cons_of_neg rest (by simpa using ha)]
        exact ih x hmem hp
          (fun y hy hpy => huniq y (List.mem_cons_of_mem a hy) hpy)

/-- A `find?` that returns none when no member satisfies the predicate. -/
theorem find?_none {α : Type} (p : α → Bool) :
    ∀ (l : List α), (∀ y ∈ l, p y = false) → l.find? p = none := by
  intro l
  induction l with
  | nil => intro _; rfl
  | cons a rest ih =>
    intro h
    rw [List.find?_cons_of_neg rest
      (by simp [h a (List.mem_cons_self a rest)])]
    exact ih (fun y hy => h y (List.mem_cons_of_mem a hy))

/-- The character-list order is transitive. -/
theorem Scalar.charsLt_trans :
    ∀ (l1 l2 l3 : List Char), Scalar.charsLt l1 l2 = true →
      Scalar.charsLt l2 l3 = true → Scalar.charsLt l1 l3 = true := by
  intro l1
  induction l1 with
  | nil =>
    intro l2 l3 h12 h23
    cases l2 with
    | nil => cases h12
    | cons d ds =>
      cases l3 with
      | nil => cases h23
      | cons e es => rfl
  | cons c cs ih =>
    intro l2 l3 h12 h23
    cases l2 with
    | nil => cases h12
    | cons d ds =>
      cases l3 with
      | nil => cases h23
      | cons e es =>
        simp only [Scalar.charsLt] at h12 h23 ⊢
        by_cases hcd : c.toNat < d.toNat
        · by_cases hde : d.toNat < e.toNat
          · rw [if_pos (by omega)]
          · rw [if_pos hcd] at h12
            rw [if_neg hde] at h23
            by_cases hed : e.toNat < d.toNat
            · rw [if_pos hed] at h23
              cases h23
            · rw [if_neg hed] at h23
              rw [if_pos (by omega)]
        · rw [if_neg hcd] at h12
          by_cases hdc : d.toNat < c.toNat
          · rw [if_pos hdc] at h12
            cases h12
          · rw [if_neg hdc] at h12
            by_cases hde : d.toNat < e.toNat
            · rw [if_pos (by omega)]
            · rw [if_neg hde] at h23
              by_cases hed : e.toNat < d.toNat
              · rw [if_pos hed] at h23
                cases h23
              · rw [if_neg hed] at h23
                rw [if_neg (by omega), if_neg (by omega)]
                exact ih ds es h12 h23

/-- The character-list order is connex: lists unrelated in either direction
are equal. -/
theorem Scalar.charsLt_conn :
    ∀ (l1 l2 : List Char), Scalar.charsLt l1 l2 = false →
      Scalar.charsLt l2 l1 = false → l1 = l2 := by
  intro l1
  induction l1 with
  | nil =>
    intro l2 h12 _
    cases l2 with
    | nil => rfl
    | cons d ds => cases h12
  | cons c cs ih =>
    intro l2 h12 h21
    cases l2 with
    | nil => cases h21
    | cons d ds =>
      simp only [Scalar.charsLt] at h12 h21
      by_cases hcd : c.toNat < d.toNat
      · rw [if_pos hcd] at h12
        cases h12
      · by_cases hdc : d.toNat < c.toNat
        · rw [if_pos hdc] at h21
          cases h21
        · rw [if_neg hcd, if_neg hdc] at h12
          rw [if_neg hdc, if_neg hcd] at h21
          have hc : c = d := by
            have : c.toNat = d.toNat := by omega
            calc c = Char.ofNat c.toNat := (Char.ofNat_toNat c).symm
              _ = Char.ofNat d.toNat := by rw [this]
              _ = d := Char.ofNat_toNat d
          rw [hc, ih ds h12 h21]

/-- The scalar merge-key order is transitive. -/
theorem Scalar.lt_trans :
    ∀ (a b c : Scalar), Scalar.lt a b = true → Scalar.lt b c = true →
      Scalar.lt a c = true := by
  intro a b c hab hbc
  cases a <;> cases b <;> cases c <;>
    simp_all [Scalar.lt, Scalar.rank] <;>
    first
      | omega
      | exact Scalar.charsLt_trans _ _ _ hab hbc

/-- The scalar merge-key order is connex: distinct scalars compare in one
direction. -/
theorem Scalar.lt_conn :
    ∀ (a b : Scalar), a ≠ b → Scalar.lt a b = true ∨ Scalar.lt b a = true := by
  intro a b hne
  cases a with
  | null =>
    cases b with
    | null => exact absurd rfl hne
    | int m => exact Or.inl (by simp [Scalar.lt, Scalar.rank])
    | text s => exact Or.inl (by simp [Scalar.lt, Scalar.rank])
  | int k =>
    cases b with
    | null => exact Or.inr (by simp [Scalar.lt, Scalar.rank])
    | int m =>
      have hk : k ≠ m := fun h => hne (by rw [h])
      rcases lt_or_gt_of_ne hk with h | h
      · exact Or.inl (by simp only [Scalar.lt, decide_eq_true_eq]; omega)
      · exact Or.inr (by simp only [Scalar.lt, decide_eq_true_eq]; omega)
    | text s => exact Or.inl (by simp [Scalar.lt, Scalar.rank])
  | text s =>
    cases b with
    | null => exact Or.inr (by simp [Scalar.lt, Scalar.rank])
    | int m => exact Or.inr (by simp [Scalar.lt, Scalar.rank])
    | text s2 =>
      by_cases h12 : Scalar.charsLt s.toList s2.toList = true
      · exact Or.inl (by simpa [Scalar.lt] using h12)
      · by_cases h21 : Scalar.charsLt s2.toList s.toList = true
        · exact Or.inr (by simpa [Scalar.lt] using h21)
        · exfalso
          apply hne
          have heq := Scalar.charsLt_conn s.toList s2.toList
            (by simpa using h12) (by simpa using h21)
          have heq2 : s = s2 := by
            cases s with
            | mk d1 =>
              cases s2 with
              | mk d2 =>
                simpa using congrArg String.mk
                  (by simpa [String.toList] using heq)
          exact congrArg Scalar.text heq2

/-- Unequal scalars under the strict order. -/
theorem Scalar.ne_of_lt (a b : Scalar) (h : Scalar.lt a b = true) : a ≠ b := by
  intro heq
  subst heq
  rw [Scalar.lt_irrefl] at h
  cases h

/-- A version at or above the bound of a bounded timestamp is not
contained. -/
theorem tsBelow_contains_false (ts : Timestamp) (N : Nat)
    (h : tsBelow ts N = true) : ∀ w, N ≤ w → ts.contains w = false := by
  intro w hw
  simp only [tsBelow, List.all_eq_true, Bool.and_eq_true,
    decide_eq_true_eq] at h
  rcases hc : ts.contains w with _ | _
  · rfl
  · exfalso
    simp only [Timestamp.contains, List.any_eq_true, Bool.and_eq_true,
      decide_eq_true_eq] at hc
    obtain ⟨i, hi, h1, h2⟩ := hc
    have := h i hi
    omega

/-- Appending a version to a timestamp bounded below it adds exactly that
version. -/
theorem Timestamp.contains_append_iff :
    ∀ (ts : Timestamp) (v : Nat), tsBelow ts v = true →
      ∀ w, ((ts.append v).contains w = true) ↔
        (ts.contains w = true ∨ w = v)
  | [], v, _, w => by
    constructor
    · intro h
      right
      have : v ≤ w ∧ w ≤ v := by
        simpa [Timestamp.append, Timestamp.contains] using h
      omega
    · intro h
      rcases h with h | rfl
      · simp [Timestamp.contains] at h
      · simp [Timestamp.append, Timestamp.contains]
  | [i], v, h, w => by
    have hb : i.lo ≤ i.hi ∧ i.hi < v := by
      simp only [tsBelow, List.all_cons, List.all_nil, Bool.and_true,
        Bool.and_eq_true, decide_eq_true_eq] at h
      exact h
    obtain ⟨hb1, hb2⟩ := hb
    simp only [Timestamp.append]
    rw [if_neg (by omega)]
    by_cases h2 : v = i.hi + 1
    · rw [if_pos h2]
      simp only [Timestamp.contains, List.any_cons, List.any_nil,
        Bool.or_false, Bool.and_eq_true, decide_eq_true_eq]
      omega
    · rw [if_neg h2]
      simp only [Timestamp.contains, List.any_cons, List.any_nil,
        Bool.or_false, Bool.and_eq_true, decide_eq_true_eq, Bool.or_eq_true]
      omega
  | i :: j :: rest, v, h, w => by
    have hb : tsBelow (j :: rest) v = true := by
      simp only [tsBelow, List.all_cons, Bool.and_eq_true] at h ⊢
      exact h.2
    have ih := Timestamp.contains_append_iff (j :: rest) v hb w
    simp only [Timestamp.append, Timestamp.contains, List.any_cons,
      Bool.or_eq_true] at ih ⊢
    constructor
    · rintro (hh | htail)
      · exact Or.inl (Or.inl hh)
      · rcases ih.mp htail with h1 | h1
        · exact Or.inl (Or.inr h1)
        · exact Or.inr h1
    · rintro ((hh | htail) | rfl)
      · exact Or.inl hh
      · exact Or.inr (ih.mpr (Or.inl htail))
      · exact Or.inr (ih.mpr (Or.inr rfl))

/-- A bounded timestamp contains the appended version. -/
theorem Timestamp.append_contains_self (ts : Timestamp) (v : Nat)
    (h : tsBelow ts v = true) : (ts.append v).contains v = true :=
  (Timestamp.contains_append_iff ts v h v).mpr (Or.inr rfl)

/-- Appending a version to a bounded timestamp leaves membership of other
versions unchanged. -/
theorem Timestamp.append_contains_ne (ts : Timestamp) (v w : Nat)
    (h : tsBelow ts v = true) (hw : w ≠ v) :
    (ts.append v).contains w = ts.contains w := by
  have := Timestamp.contains_append_iff ts v h w
  rcases hc : ts.contains w with _ | _
  · rcases hc2 : (ts.append v).contains w with _ | _
    · rfl
    · rcases this.mp hc2 with h1 | h1
      · rw [hc] at h1; cases h1
      · exact absurd h1 hw
  · exact this.mpr (Or.inl hc)

/-- No element of a bounded MultiVersionValue contains the bound version. -/
theorem mvBelow_contains_false (m : MVValue) (v : Nat)
    (h : mvBelow m v = true) :
    ∀ tv ∈ m, tv.ts.contains v = false := by
  intro tv htv
  simp only [mvBelow, List.all_eq_true] at h
  exact tsBelow_contains_false tv.ts v (h tv htv) v (le_refl v)

/-- Extending a bounded MultiVersionValue makes the new scalar the value at
the new version. -/
theorem MVValue.valueAt_extend_self :
    ∀ (m : MVValue) (x : Scalar) (v : Nat), mvBelow m v = true →
      (m.extend x v).valueAt v = some x := by
  intro m x v h
  by_cases hx : x ∈ m.map (·.value)
  · rw [MVValue.extend_of_mem m x v hx]
    induction m with
    | nil => simp at hx
    | cons tv0 rest ih =>
      have hb0 : tsBelow tv0.ts v = true := by
        simp only [mvBelow, List.all_cons, Bool.and_eq_true] at h
        exact h.1
      have hbrest : mvBelow rest v = true := by
        simp only [mvBelow, List.all_cons, Bool.and_eq_true] at h
        exact h.2
      by_cases he : tv0.value = x
      · unfold MVValue.valueAt
        rw [List.map_cons, if_pos he,
          List.find?_cons_of_pos (p := fun (tv : TSValue) => tv.ts.contains v) _
            (Timestamp.append_contains_self tv0.ts v hb0)]
        simp [he]
      · unfold MVValue.valueAt
        rw [List.map_cons, if_neg he,
          List.find?_cons_of_neg (p := fun (tv : TSValue) => tv.ts.contains v) _
            (by simp [mvBelow_contains_false [tv0] v
              (by simpa [mvBelow] using hb0) tv0 (List.mem_cons_self _ _)])]
        have hx1 : x ∈ rest.map (·.value) := by
          rcases List.mem_map.mp hx with ⟨tv1, htv1, hval⟩
          rcases List.mem_cons.mp htv1 with heq | hmem
          · subst heq; exact absurd hval he
          · exact List.mem_map.mpr ⟨tv1, hmem, hval⟩
        exact ih hbrest hx1
  · rw [MVValue.extend_of_notMem m x v hx]
    induction m with
    | nil =>
      unfold MVValue.valueAt
      rw [List.nil_append,
        List.find?_cons_of_pos (p := fun (tv : TSValue) => tv.ts.contains v) _
          (by simp [Timestamp.contains])]
      rfl
    | cons tv0 rest ih =>
      have hb0 : tsBelow tv0.ts v = true := by
        simp only [mvBelow, List.all_cons, Bool.and_eq_true] at h
        exact h.1
      have hbrest : mvBelow rest v = true := by
        simp only [mvBelow, List.all_cons, Bool.and_eq_true] at h
        exact h.2
      have hx1 : x ∉ rest.map (·.value) := by
        intro hc
        rcases List.mem_map.mp hc with ⟨tv1, htv1, hval⟩
        exact hx (List.mem_map.mpr ⟨tv1, List.mem_cons_of_mem _ htv1, hval⟩)
      unfold MVValue.valueAt
      rw [List.cons_append,
        List.find?_cons_of_neg (p := fun (tv : TSValue) => tv.ts.contains v) _
          (by simp [tsBelow_contains_false tv0.ts v hb0 v (le_refl v)])]
      exact ih hbrest hx1

/-- Extending a bounded MultiVersionValue does not change the value at any
other version. -/
theorem MVValue.valueAt_extend_ne :
    ∀ (m : MVValue) (x : Scalar) (v w : Nat), mvBelow m v = true → w ≠ v →
      (m.extend x v).valueAt w = m.valueAt w := by
  intro m x v w h hw
  by_cases hx : x ∈ m.map (·.value)
  · rw [MVValue.extend_of_mem m x v hx]
    clear hx
    induction m with
    | nil => rfl
    | cons tv0 rest ih =>
      have hb0 : tsBelow tv0.ts v = true := by
        simp only [mvBelow, List.all_cons, Bool.and_eq_true] at h
        exact h.1
      have hbrest : mvBelow rest v = true := by
        simp only [mvBelow, List.all_cons, Bool.and_eq_true] at h
        exact h.2
      have hsame : (if tv0.value = x then
          (⟨tv0.value, tv0.ts.append v⟩ : TSValue) else tv0).ts.contains w =
          tv0.ts.contains w := by
        by_cases he : tv0.value = x
        · simp only [if_pos he]
          exact Timestamp.append_contains_ne tv0.ts v w hb0 hw
        · simp only [if_neg he]
      rcases hc : tv0.ts.contains w with _ | _
      · unfold MVValue.valueAt
        rw [List.map_cons,
          List.find?_cons_of_neg (p := fun (tv : TSValue) => tv.ts.contains w) _
            (by simp [hsame, hc]),
          List.find?_cons_of_neg (p := fun (tv : TSValue) => tv.ts.contains w) _
            (by simp [hc])]
        exact ih hbrest
      · unfold MVValue.valueAt
        rw [List.map_cons,
          List.find?_cons_of_pos (p := fun (tv : TSValue) => tv.ts.contains w) _
            (by simp [hsame, hc]),
          List.find?_cons_of_pos (p := fun (tv : TSValue) => tv.ts.contains w) _ hc]
        by_cases he : tv0.value = x <;> simp [he]
  · rw [MVValue.extend_of_notMem m x v hx]
    clear hx
    induction m with
    | nil =>
      unfold MVValue.valueAt
      rw [List.nil_append,
        List.find?_cons_of_neg (p := fun (tv : TSValue) => tv.ts.contains w) _
          (by simp [Timestamp.contains]; omega)]
      try rfl
    | cons tv0 rest ih =>
      have hbrest : mvBelow rest v = true := by
        simp only [mvBelow, List.all_cons, Bool.and_eq_true] at h
        exact h.2
      rcases hc : tv0.ts.contains w with _ | _
      · unfold MVValue.valueAt
        rw [List.cons_append,
          List.find?_cons_of_neg (p := fun (tv : TSValue) => tv.ts.contains w) _
            (by simp [hc]),
          List.find?_cons_of_neg (p := fun (tv : TSValue) => tv.ts.contains w) _
            (by simp [hc])]
        exact ih hbrest
      · unfold MVValue.valueAt
        rw [List.cons_append,
          List.find?_cons_of_pos (p := fun (tv : TSValue) => tv.ts.contains w) _ hc,
          List.find?_cons_of_pos (p := fun (tv : TSValue) => tv.ts.contains w) _ hc]

/-- The value extracted from a MultiVersionValue is one of its scalars. -/
theorem MVValue.valueAt_mem (m : MVValue) (v : Nat) (x : Scalar)
    (h : m.valueAt v = some x) : x ∈ m.map (·.value) := by
  unfold MVValue.valueAt at h
  rcases hf : m.find? (fun tv => tv.ts.contains v) with _ | tv
  · rw [hf] at h; cases h
  · rw [hf] at h
    have hmem := List.mem_of_find?_eq_some hf
    injection h with h
    exact List.mem_map.mpr ⟨tv, hmem, h⟩

/-- Association lookup of a present key under distinct keys. -/
theorem lookup_of_mem_nodup :
    ∀ (cells : List (Nat × MVValue)) (c : Nat) (m : MVValue),
      (cells.map Prod.fst).Nodup → (c, m) ∈ cells →
      cells.lookup c = some m := by
  intro cells
  induction cells with
  | nil => intro c m _ h; cases h
  | cons p rest ih =>
    intro c m hnd hm
    obtain ⟨c0, m0⟩ := p
    have hnd1 : (∀ y : MVValue, (c0, y) ∉ rest) ∧
        (rest.map Prod.fst).Nodup := by simpa using hnd
    rcases List.mem_cons.mp hm with heq | hmem
    · injection heq with h1 h2
      subst h1; subst h2
      simp [List.lookup_cons]
    · have hc : c ≠ c0 := by
        intro h
        subst h
        exact hnd1.1 m hmem
      rw [List.lookup_cons]
      have hb : (c == c0) = false := by simpa using hc
      rw [hb]
      exact ih c m hnd1.2 hmem

/-- Association lookup only returns members. -/
theorem mem_of_lookup :
    ∀ (cells : List (Nat × MVValue)) (c : Nat) (m : MVValue),
      cells.lookup c = some m → (c, m) ∈ cells := by
  intro cells
  induction cells with
  | nil => intro c m h; cases h
  | cons p rest ih =>
    intro c m h
    obtain ⟨c0, m0⟩ := p
    rw [List.lookup_cons] at h
    by_cases hc : c = c0
    · rw [hc] at h
      simp only [beq_self_eq_true] at h
      injection h with h
      subst h
      exact hc ▸ List.mem_cons_self _ _
    · have hb : (c == c0) = false := by simpa using hc
      rw [hb] at h
      exact List.mem_cons_of_mem _ (ih c m h)

/-- The cell update stores exactly the extension of the previous cell
history under the updated column id. -/
theorem upsertCell_lookup_same :
    ∀ (cells : List (Nat × MVValue)) (c : Nat) (x : Scalar) (v : Nat),
      (upsertCell cells c x v).lookup c =
        some (MVValue.extend ((cells.lookup c).getD []) x v) := by
  intro cells
  induction cells with
  | nil =>
    intro c x v
    simp [upsertCell, List.lookup_cons, MVValue.extend]
  | cons p rest ih =>
    intro c x v
    obtain ⟨c0, m0⟩ := p
    by_cases hc : c0 = c
    · subst hc
      simp [upsertCell, List.lookup_cons]
    · have hb : (c == c0) = false := by
        simpa using fun h => hc h.symm
      simp only [upsertCell, if_neg hc]
      rw [List.lookup_cons, hb, List.lookup_cons, hb]
      exact ih c x v

/-- The cell update leaves other column ids untouched. -/
theorem upsertCell_lookup_ne :
    ∀ (cells : List (Nat × MVValue)) (c : Nat) (x : Scalar) (v : Nat)
      (c1 : Nat), c1 ≠ c →
      (upsertCell cells c x v).lookup c1 = cells.lookup c1 := by
  intro cells
  induction cells with
  | nil =>
    intro c x v c1 hne
    have hb : (c1 == c) = false := by simpa using hne
    simp only [upsertCell]
    rw [List.lookup_cons, hb, List.lookup_nil]
  | cons p rest ih =>
    intro c x v c1 hne
    obtain ⟨c0, m0⟩ := p
    by_cases hc : c0 = c
    · subst hc
      have hb : (c1 == c0) = false := by simpa using hne
      simp only [upsertCell, if_true]
      rw [List.lookup_cons, hb, List.lookup_cons, hb]
    · simp only [upsertCell, if_neg hc]
      by_cases hc1 : c1 = c0
      · subst hc1
        rw [List.lookup_cons, List.lookup_cons]
        simp
      · have hb : (c1 == c0) = false := by simpa using hc1
        rw [List.lookup_cons, hb, List.lookup_cons, hb]
        exact ih c x v c1 hne

/-- The cell update preserves the column-id list when the id is present. -/
theorem upsertCell_keys_of_mem :
    ∀ (cells : List (Nat × MVValue)) (c : Nat) (x : Scalar) (v : Nat),
      c ∈ cells.map Prod.fst →
      (upsertCell cells c x v).map Prod.fst = cells.map Prod.fst := by
  intro cells
  induction cells with
  | nil => intro c x v h; cases h
  | cons p rest ih =>
    intro c x v h
    obtain ⟨c0, m0⟩ := p
    by_cases hc : c0 = c
    · simp [upsertCell, hc]
    · have h2 := (by simpa using h : c = c0 ∨ ∃ y : MVValue, (c, y) ∈ rest)
      have h1 : c ∈ rest.map Prod.fst := by
        rcases h2 with heq | ⟨y, hy⟩
        · exact absurd heq.symm hc
        · exact List.mem_map.mpr ⟨(c, y), hy, rfl⟩
      simp only [upsertCell, if_neg hc, List.map_cons]
      rw [ih c x v h1]

/-- Folding document cells leaves column ids outside the document
untouched. -/
theorem extendCells_lookup_notMem :
    ∀ (vals : List (Nat × Scalar)) (cells : List (Nat × MVValue)) (v c : Nat),
      c ∉ vals.map Prod.fst →
      (extendCells cells vals v).lookup c = cells.lookup c := by
  intro vals
  induction vals with
  | nil => intro cells v c _; rfl
  | cons q rest ih =>
    intro cells v c h
    have h1 : c ∉ rest.map Prod.fst := by
      intro hc; exact h (by simp [hc])
    have h2 : c ≠ q.1 := by
      intro hc; exact h (by simp [hc])
    simp only [extendCells]
    rw [ih _ v c h1, upsertCell_lookup_ne cells q.1 q.2 v c h2]

/-- Folding document cells stores, under each document column id, the
extension of the previous history with the document value. -/
theorem extendCells_lookup_hit :
    ∀ (vals : List (Nat × Scalar)) (cells : List (Nat × MVValue)) (v : Nat)
      (c : Nat) (x : Scalar),
      (vals.map Prod.fst).Nodup → (c, x) ∈ vals →
      (extendCells cells vals v).lookup c =
        some (MVValue.extend ((cells.lookup c).getD []) x v) := by
  intro vals
  induction vals with
  | nil => intro cells v c x _ h; cases h
  | cons q rest ih =>
    intro cells v c x hnd hm
    obtain ⟨c0, x0⟩ := q
    have hnd1 : (∀ y : Scalar, (c0, y) ∉ rest) ∧
        (rest.map Prod.fst).Nodup := by simpa using hnd
    rcases List.mem_cons.mp hm with heq | hmem
    · injection heq with h1 h2
      subst h1; subst h2
      have hni : c ∉ rest.map Prod.fst := by
        intro hc
        rcases List.mem_map.mp hc with ⟨⟨c1, x1⟩, hmem1, hfst⟩
        exact hnd1.1 x1 (by simpa [← hfst] using hmem1)
      simp only [extendCells]
      rw [extendCells_lookup_notMem rest _ v c hni,
        upsertCell_lookup_same cells c x v]
    · have hc0 : c ≠ c0 := by
        intro hc
        subst hc
        exact hnd1.1 x hmem
      simp only [extendCells]
      rw [ih _ v c x hnd1.2 hmem,
        upsertCell_lookup_ne cells c0 x0 v c hc0]

/-- Folding document cells whose ids are already present preserves the
column-id list. -/
theorem extendCells_keys :
    ∀ (vals : List (Nat × Scalar)) (cells : List (Nat × MVValue)) (v : Nat),
      (∀ cc ∈ vals.map Prod.fst, cc ∈ cells.map Prod.fst) →
      (extendCells cells vals v).map Prod.fst = cells.map Prod.fst := by
  intro vals
  induction vals with
  | nil => intro cells v _; rfl
  | cons q rest ih =>
    intro cells v h
    have hq : q.1 ∈ cells.map Prod.fst := h q.1 (by simp)
    have hkeys := upsertCell_keys_of_mem cells q.1 q.2 v hq
    simp only [extendCells]
    rw [ih _ v (fun cc hcc => by
      rw [hkeys]
      exact h cc (by simp [hcc])), hkeys]

/-- Every cell history after folding document cells is either the previous
history or its extension with the document value of that column. -/
theorem extendCells_growth :
    ∀ (vals : List (Nat × Scalar)) (cells : List (Nat × MVValue)) (v : Nat),
      (cells.map Prod.fst).Nodup →
      (∀ cc ∈ vals.map Prod.fst, cc ∈ cells.map Prod.fst) →
      (vals.map Prod.fst).Nodup →
      ∀ c m1, (c, m1) ∈ extendCells cells vals v →
        ∃ m, (c, m) ∈ cells ∧
          (m1 = m ∨ ∃ x, (c, x) ∈ vals ∧ m1 = MVValue.extend m x v) := by
  intro vals
  induction vals with
  | nil =>
    intro cells v _ _ _ c m1 hm
    exact ⟨m1, hm, Or.inl rfl⟩
  | cons q rest ih =>
    intro cells v hcnd hsub hvnd c m1 hm
    obtain ⟨c0, x0⟩ := q
    have hc0 : c0 ∈ cells.map Prod.fst := hsub c0 (by simp)
    obtain ⟨⟨pc, pm⟩, hpmem, hpc⟩ := List.mem_map.mp hc0
    have hpc1 : pc = c0 := hpc
    rw [hpc1] at hpmem
    have hup := upsertCell_of_mem c0 x0 v cells pm hcnd hpmem
    have hvnd1 : (∀ y : Scalar, (c0, y) ∉ rest) ∧
        (rest.map Prod.fst).Nodup := by simpa using hvnd
    have hkeys : (upsertCell cells c0 x0 v).map Prod.fst =
        cells.map Prod.fst := upsertCell_keys_of_mem cells c0 x0 v hc0
    simp only [extendCells] at hm
    have hrec := ih (upsertCell cells c0 x0 v) v
      (by rw [hkeys]; exact hcnd)
      (fun cc hcc => by
        rw [hkeys]
        exact hsub cc (by simp [hcc]))
      hvnd1.2 c m1 hm
    obtain ⟨m2, hm2, hcase⟩ := hrec
    rw [hup] at hm2
    obtain ⟨⟨qc, qm⟩, hqmem, hqeq⟩ := List.mem_map.mp hm2
    by_cases hqc : qc = c0
    · rw [if_pos hqc] at hqeq
      injection hqeq with he1 he2
      subst he1
      refine ⟨qm, hqmem, ?_⟩
      rcases hcase with hcase | ⟨x, hx, _⟩
      · exact Or.inr ⟨x0, by simp [hqc], by rw [hcase, ← he2]⟩
      · exact absurd (by simpa [hqc] using hx) (hvnd1.1 x)
    · rw [if_neg hqc] at hqeq
      injection hqeq with he1 he2
      subst he1
      refine ⟨qm, hqmem, ?_⟩
      rcases hcase with hcase | ⟨x, hx, hext⟩
      · exact Or.inl (by rw [hcase, ← he2])
      · exact Or.inr ⟨x, List.mem_cons_of_mem _ hx, by rw [hext, ← he2]⟩

/-- The keys of the document rows of a keyed commit are the key-column
values of the table rows. -/
theorem keyedDocRows_keys (tbl : List (List Scalar)) (colIds : List Nat)
    (kIdx : Nat) :
    (keyedDocRows tbl colIds kIdx).map (·.key) =
      tbl.map (fun row => row.getD kIdx Scalar.null) := by
  simp only [keyedDocRows, List.map_map]
  calc tbl.enum.map ((fun b => b.key) ∘ (fun p =>
        ({ rid := none, pos := p.1, key := p.2.getD kIdx Scalar.null,
           cells := colIds.zip p.2 } : DocRow)))
      = tbl.enum.map ((fun row => row.getD kIdx Scalar.null) ∘ Prod.snd) := rfl
    _ = (tbl.enum.map Prod.snd).map
          (fun row => row.getD kIdx Scalar.null) := by rw [List.map_map]
    _ = tbl.map (fun row => row.getD kIdx Scalar.null) := by
        rw [List.enum_map_snd]

/-- When every document key matches some archive row key (and both streams
are sorted strictly by key), the streaming merge updates exactly the matched
rows in place, creates no rows, and leaves the id counter unchanged. -/
theorem mergeRowsF_update (v : Nat) :
    ∀ (f : Nat) (as : List ArchiveRow) (bs : List DocRow) (nid : Nat),
      as.length + bs.length ≤ f →
      as.Pairwise (fun a b => Scalar.lt a.key b.key = true) →
      bs.Pairwise (fun a b => Scalar.lt a.key b.key = true) →
      (∀ b ∈ bs, ∃ a ∈ as, a.key = b.key) →
      mergeRowsF v f as bs nid =
        (as.map (fun a =>
          match bs.find? (fun b => decide (b.key = a.key)) with
          | some b => updateRow a b v
          | none => a), nid) := by
  intro f
  induction f with
  | zero =>
    intro as bs nid hlen _ _ _
    cases as with
    | nil =>
      cases bs with
      | nil => rfl
      | cons b bs => simp at hlen
    | cons a as => simp at hlen
  | succ f ih =>
    intro as bs nid hlen hpa hpb hsub
    cases bs with
    | nil =>
      simp only [mergeRowsF]
      have : as.map (fun a =>
          match List.find? (fun b => decide (b.key = a.key)) [] with
          | some b => updateRow a b v
          | none => a) = as := by
        simp [List.find?]
      rw [this]
    | cons b bs =>
      cases as with
      | nil =>
        obtain ⟨a, ha, _⟩ := hsub b (List.mem_cons_self b bs)
        cases ha
      | cons a as =>
        obtain ⟨hpah, hpat⟩ := List.pairwise_cons.mp hpa
        obtain ⟨hpbh, hpbt⟩ := List.pairwise_cons.mp hpb
        obtain ⟨a0, ha0, hk0⟩ := hsub b (List.mem_cons_self b bs)
        rcases List.mem_cons.mp ha0 with heq | hmem0
        · subst heq
          have h1 : Scalar.lt a0.key b.key = false := by
            rw [hk0]; exact Scalar.lt_irrefl _
          have h2 : Scalar.lt b.key a0.key = false := by
            rw [hk0]; exact Scalar.lt_irrefl _
          simp only [mergeRowsF]
          rw [if_neg (by simp [h1]), if_neg (by simp [h2])]
          have hsub1 : ∀ b1 ∈ bs, ∃ a1 ∈ as, a1.key = b1.key := by
            intro b1 hb1
            obtain ⟨a1, ha1, hk1⟩ := hsub b1 (List.mem_cons_of_mem b hb1)
            rcases List.mem_cons.mp ha1 with heq1 | hmem1
            · exfalso
              subst heq1
              have hbb := hpbh b1 hb1
              rw [← hk1, hk0] at hbb
              rw [Scalar.lt_irrefl] at hbb
              cases hbb
            · exact ⟨a1, hmem1, hk1⟩
          rw [ih as bs nid (by simp at hlen ⊢; omega) hpat hpbt hsub1]
          have hhead : (b :: bs).find?
              (fun b1 => decide (b1.key = a0.key)) = some b :=
            List.find?_cons_of_pos bs (by simp [← hk0])
          have htail : as.map (fun a =>
              match (b :: bs).find? (fun b1 => decide (b1.key = a.key)) with
              | some b1 => updateRow a b1 v
              | none => a) = as.map (fun a =>
              match bs.find? (fun b1 => decide (b1.key = a.key)) with
              | some b1 => updateRow a b1 v
              | none => a) := by
            apply List.map_congr_left
            intro a1 ha1
            have hne : b.key ≠ a1.key := by
              intro hbe
              have := hpah a1 ha1
              rw [← hbe, ← hk0, Scalar.lt_irrefl] at this
              cases this
            rw [List.find?_cons_of_neg bs (by simp [hne])]
          simp only [List.map_cons, hhead, htail]
        · have hlt : Scalar.lt a.key b.key = true := by
            have := hpah a0 hmem0
            rw [hk0] at this
            exact this
          simp only [mergeRowsF]
          rw [if_pos (by simp [hlt])]
          have hsub1 : ∀ b1 ∈ b :: bs, ∃ a1 ∈ as, a1.key = b1.key := by
            intro b1 hb1
            rcases List.mem_cons.mp hb1 with heq1 | hmem1
            · subst heq1
              exact ⟨a0, hmem0, hk0⟩
            · obtain ⟨a1, ha1, hk1⟩ := hsub b1 (List.mem_cons_of_mem b hmem1)
              rcases List.mem_cons.mp ha1 with heq2 | hmem2
              · exfalso
                subst heq2
                have hbb := hpbh b1 hmem1
                have htr := Scalar.lt_trans a1.key b.key b1.key hlt hbb
                rw [hk1, Scalar.lt_irrefl] at htr
                cases htr
              · exact ⟨a1, hmem2, hk1⟩
          rw [ih as (b :: bs) nid (by simp at hlen ⊢; omega) hpat hpb hsub1]
          have hhead : (b :: bs).find?
              (fun b1 => decide (b1.key = a.key)) = none := by
            apply find?_none
            intro b1 hb1
            rcases List.mem_cons.mp hb1 with heq1 | hmem1
            · subst heq1
              simp only [decide_eq_false_iff_not]
              intro hbe
              rw [← hbe, Scalar.lt_irrefl] at hlt
              cases hlt
            · simp only [decide_eq_false_iff_not]
              intro hbe
              have hbb := hpbh b1 hmem1
              have htr := Scalar.lt_trans a.key b.key b1.key hlt hbb
              rw [hbe, Scalar.lt_irrefl] at htr
              cases htr
          simp only [List.map_cons, hhead]

instance : IsTotal DocRow docKeyLE :=
  ⟨fun a b => by
    unfold docKeyLE
    by_cases h1 : Scalar.lt b.key a.key = true
    · by_cases h2 : Scalar.lt a.key b.key = true
      · have := Scalar.lt_trans a.key b.key a.key h2 h1
        rw [Scalar.lt_irrefl] at this
        cases this
      · exact Or.inr (by simpa using h2)
    · exact Or.inl (by simpa using h1)⟩

instance : IsTrans DocRow docKeyLE :=
  ⟨fun a b c hab hbc => by
    unfold docKeyLE at hab hbc ⊢
    by_cases hca : Scalar.lt c.key a.key = true
    · exfalso
      by_cases he : a.key = b.key
      · rw [← he] at hbc
        rw [hbc] at hca
        cases hca
      · rcases Scalar.lt_conn a.key b.key he with h1 | h1
        · have := Scalar.lt_trans c.key a.key b.key hca h1
          rw [hbc] at this
          cases this
        · rw [hab] at h1
          cases h1
    · simpa using hca⟩

/-- A list sorted by the document key order with distinct keys is strictly
increasing in key. -/
theorem sorted_doc_pairwise (l : List DocRow)
    (hs : l.Pairwise docKeyLE) (hnd : (l.map (·.key)).Nodup) :
    l.Pairwise (fun a b => Scalar.lt a.key b.key = true) := by
  have hne : l.Pairwise (fun a b => a.key ≠ b.key) :=
    List.pairwise_map.mp hnd
  refine (hs.and hne).imp ?_
  rintro a b ⟨hle, hkne⟩
  rcases Scalar.lt_conn a.key b.key hkne with h1 | h1
  · exact h1
  · exact absurd h1 (by simpa [docKeyLE] using hle)

/-- Strictly key-sorted archive rows have pairwise distinct keys. -/
theorem rows_keys_nodup (l : List ArchiveRow)
    (h : l.Pairwise (fun a b => Scalar.lt a.key b.key = true)) :
    (l.map (·.key)).Nodup :=
  List.pairwise_map.mpr (h.imp (fun hab => Scalar.ne_of_lt _ _ hab))

/-- Indices in an enumeration grow from the starting index. -/
theorem enumFrom_fst_ge {α : Type} :
    ∀ (l : List α) (m : Nat), ∀ p ∈ l.enumFrom m, m ≤ p.1 := by
  intro l
  induction l with
  | nil => intro m p hp; cases hp
  | cons a rest ih =>
    intro m p hp
    rcases List.mem_cons.mp hp with heq | hmem
    · subst heq; exact le_refl m
    · exact le_trans (Nat.le_succ m) (ih (m + 1) p hmem)

/-- Enumeration indices are strictly increasing. -/
theorem enumFrom_fst_pairwise {α : Type} :
    ∀ (l : List α) (m : Nat),
      (l.enumFrom m).Pairwise (fun p q => p.1 < q.1) := by
  intro l
  induction l with
  | nil => intro m; exact List.Pairwise.nil
  | cons a rest ih =>
    intro m
    refine List.pairwise_cons.mpr ⟨?_, ih (m + 1)⟩
    intro q hq
    exact lt_of_lt_of_le (Nat.lt_succ_self m) (enumFrom_fst_ge rest (m + 1) q hq)

/-- Re-using an existing scalar relates the extended MultiVersionValue to the
original pointwise: values unchanged, timestamps unchanged or appended. -/
theorem extend_forall₂ (m : MVValue) (x : Scalar) (v : Nat)
    (h : x ∈ m.map (·.value)) :
    List.Forall₂ (fun tv1 tv => tv1.value = tv.value ∧
      (tv1.ts = tv.ts ∨ tv1.ts = tv.ts.append v)) (m.extend x v) m := by
  rw [MVValue.extend_of_mem m x v h]
  rw [List.forall₂_map_left_iff]
  refine List.forall₂_same.mpr ?_
  intro tv _
  by_cases he : tv.value = x <;> simp [he]

/-- Every list member appears in the enumeration (from any start index). -/
theorem mem_enumFrom_of_mem {α : Type} :
    ∀ (l : List α) (a : α) (m : Nat), a ∈ l → ∃ k, (k, a) ∈ l.enumFrom m := by
  intro l
  induction l with
  | nil => intro a m ha; cases ha
  | cons x rest ih =>
    intro a m ha
    rcases List.mem_cons.mp ha with heq | hmem
    · subst heq
      exact ⟨m, by simp [List.enumFrom_cons]⟩
    · obtain ⟨k, hk⟩ := ih a (m + 1) hmem
      exact ⟨k, by
        rw [List.enumFrom_cons]
        exact List.mem_cons_of_mem _ hk⟩

/-- Every list member appears in the enumeration with some index. -/
theorem mem_enum_of_mem {α : Type} (l : List α) (a : α) (h : a ∈ l) :
    ∃ k, (k, a) ∈ l.enum :=
  mem_enumFrom_of_mem l a 0 h

/-- Zipping a list with its image under a function lists the graph of the
function. -/
theorem zip_self_map {α β : Type} (l : List α) (g : α → β) :
    l.zip (l.map g) = l.map (fun a => (a, g a)) := by
  have := List.zip_map' (fun a : α => a) g l
  simpa using this

/-- Checking out an updated row at the new version reproduces the row id and
the snapshot values of the old version, with the document position. -/
theorem rowAt_updateRow (r : ArchiveRow) (b : DocRow) (colIds : List Nat)
    (v v1 : Nat)
    (hposb : mvBelow r.pos v1 = true)
    (hcnd : (r.cells.map Prod.fst).Nodup)
    (hcb : ∀ p ∈ r.cells, mvBelow p.2 v1 = true)
    (hcolsub : ∀ c ∈ colIds, c ∈ r.cells.map Prod.fst ∧
      (((r.cells.lookup c).getD []).valueAt v).isSome = true)
    (hvnd : colIds.Nodup)
    (hbc : b.cells = colIds.zip ((rowAt r colIds v).values)) :
    rowAt (updateRow r b v1) colIds v1 =
      { rowId := r.rowId, pos := ((b.pos : Nat) : Int),
        values := (rowAt r colIds v).values } := by
  have hvals : (rowAt r colIds v).values = colIds.map (fun c =>
      (((r.cells.lookup c).getD []).valueAt v).getD .null) := rfl
  have hbc2 : b.cells = colIds.map (fun c => (c,
      (((r.cells.lookup c).getD []).valueAt v).getD .null)) := by
    rw [hbc, hvals, zip_self_map]
  have hbids : b.cells.map Prod.fst = colIds := by
    rw [hbc2, List.map_map]
    exact List.map_id'' (fun x => rfl) colIds
  have h2 : (((updateRow r b v1).pos.valueAt v1).getD Scalar.null).toInt =
      ((b.pos : Nat) : Int) := by
    have hup : (updateRow r b v1).pos = r.pos.extend (.int b.pos) v1 := rfl
    rw [hup, MVValue.valueAt_extend_self r.pos (.int b.pos) v1 hposb]
    rfl
  have h3 : colIds.map (fun c =>
      ((((updateRow r b v1).cells.lookup c).getD []).valueAt v1).getD
        Scalar.null) = (rowAt r colIds v).values := by
    rw [hvals]
    apply List.map_congr_left
    intro c hc
    have hcells : (updateRow r b v1).cells = extendCells r.cells b.cells v1 :=
      rfl
    obtain ⟨hcmem, hcsome⟩ := hcolsub c hc
    have hmemb : (c, (((r.cells.lookup c).getD []).valueAt v).getD
        Scalar.null) ∈ b.cells := by
      rw [hbc2]
      exact List.mem_map.mpr ⟨c, hc, rfl⟩
    have hbnd : (b.cells.map Prod.fst).Nodup := by
      rw [hbids]; exact hvnd
    have hlk := extendCells_lookup_hit b.cells r.cells v1 c _ hbnd hmemb
    have hmb : mvBelow ((r.cells.lookup c).getD []) v1 = true := by
      obtain ⟨p, hp, hpfst⟩ := List.mem_map.mp hcmem
      obtain ⟨pc, pm⟩ := p
      have hpc : pc = c := hpfst
      subst hpc
      have hl := lookup_of_mem_nodup r.cells pc pm hcnd hp
      rw [hl]
      exact hcb (pc, pm) hp
    rw [hcells, hlk]
    simp only [Option.getD_some]
    rw [MVValue.valueAt_extend_self _ _ _ hmb]
    rfl
  have h2a : (rowAt (updateRow r b v1) colIds v1).pos =
      ((b.pos : Nat) : Int) := h2
  have h3a : (rowAt (updateRow r b v1) colIds v1).values =
      (rowAt r colIds v).values := h3
  show (⟨(rowAt (updateRow r b v1) colIds v1).rowId,
    (rowAt (updateRow r b v1) colIds v1).pos,
    (rowAt (updateRow r b v1) colIds v1).values⟩ : OutRow) = _
  rw [h2a, h3a]
  rfl

/-! Claim theorems. -/

/-- C2: after the four keyed commits of Scenario A, the archive contains a
row for Alice with row id 0, key Alice over its lifetime `[0-3]`, timestamp
`[0-3]`, position 0 over `[0-2]` and 3 over `[3]`, Name cell Alice over
`[0-3]`, Age cell 32 over `[0,2-3]` and 33 over `[1]`; a row for Dave with
timestamp `[0-1]`; and a row for Eve with row id 4, timestamp `[2-3]`,
position 3 over `[2]` and 0 over `[3]`. -/
theorem claim_C2 :
    scenarioA.rowWithKey (t "Alice") = aliceRecorded ∧
    (scenarioA.rowWithKey (t "Dave")).ts = [⟨0, 1⟩] ∧
    (scenarioA.rowWithKey (t "Eve")).rowId = 4 ∧
    (scenarioA.rowWithKey (t "Eve")).ts = [⟨2, 3⟩] ∧
    (scenarioA.rowWithKey (t "Eve")).pos =
      [⟨n 3, [⟨2, 2⟩]⟩, ⟨n 0, [⟨3, 3⟩]⟩] := by
  decide

/-- C1 counterexample: the claim says the equal-keys update applies the
spec's `extend`, which compares the new scalar only against the LAST
TimestampedValue.  Applying that operation to Alice's Age history at
versions 2 and 3 of Scenario A yields three TimestampedValues
`(32 [0], 33 [1], 32 [2-3])`, which differs from the archive row recorded in
the repository's notebook, `(32 [0,2-3], 33 [1])`; the code's update (reuse
of an equal scalar anywhere in the list) reproduces the recorded row. -/
theorem claim_C1_counterexample :
    ((scenarioAafter 2).rowWithKey (t "Alice")).cellOf 1 =
      [⟨n 32, [⟨0, 0⟩]⟩, ⟨n 33, [⟨1, 1⟩]⟩] ∧
    aliceRecorded.cellOf 1 ≠
      MVValue.extendSpec (MVValue.extendSpec
        [⟨n 32, [⟨0, 0⟩]⟩, ⟨n 33, [⟨1, 1⟩]⟩] (n 32) 2) (n 32) 3 ∧
    MVValue.extendSpec (MVValue.extendSpec
        [⟨n 32, [⟨0, 0⟩]⟩, ⟨n 33, [⟨1, 1⟩]⟩] (n 32) 2) (n 32) 3 =
      [⟨n 32, [⟨0, 0⟩]⟩, ⟨n 33, [⟨1, 1⟩]⟩, ⟨n 32, [⟨2, 3⟩]⟩] ∧
    aliceRecorded.cellOf 1 =
      MVValue.extend (MVValue.extend
        [⟨n 32, [⟨0, 0⟩]⟩, ⟨n 33, [⟨1, 1⟩]⟩] (n 32) 2) (n 32) 3 ∧
    scenarioA.rowWithKey (t "Alice") = aliceRecorded := by
  decide

/-- C1 (amended): in the equal-keys case of the merge at version `v`, the
merged row is updated with `extend` for the position value and for every
column present in the snapshot (a column absent from the row is initialized
as a fresh single-version cell); and `extend` appends `v` to the timestamp of
the TimestampedValue whose scalar equals the new scalar, wherever that value
occurs in the MultiVersionValue, and otherwise appends a new TimestampedValue
`(x, [v,v])` at the end. -/
theorem claim_C1 :
    (∀ (v f : Nat) (a : ArchiveRow) (as : List ArchiveRow) (b : DocRow)
        (bs : List DocRow) (nid : Nat), a.key = b.key →
      mergeRowsF v (f + 1) (a :: as) (b :: bs) nid =
        (updateRow a b v :: (mergeRowsF v f as bs nid).1,
          (mergeRowsF v f as bs nid).2)) ∧
    (∀ (a : ArchiveRow) (b : DocRow) (v : Nat),
      (updateRow a b v).pos = a.pos.extend (.int b.pos) v ∧
      (updateRow a b v).cells = extendCells a.cells b.cells v) ∧
    (∀ (cells : List (Nat × MVValue)) (c : Nat) (x : Scalar) (v : Nat),
      ((cells.map Prod.fst).Nodup → ∀ m : MVValue, (c, m) ∈ cells →
        upsertCell cells c x v =
          cells.map (fun p => if p.1 = c then (p.1, p.2.extend x v) else p)) ∧
      (c ∉ cells.map Prod.fst →
        upsertCell cells c x v = cells ++ [(c, [⟨x, [⟨v, v⟩]⟩])])) ∧
    (∀ (m : MVValue) (x : Scalar) (v : Nat),
      (x ∈ m.map (·.value) →
        m.extend x v =
          m.map (fun tv => if tv.value = x then ⟨tv.value, tv.ts.append v⟩
            else tv)) ∧
      (x ∉ m.map (·.value) → m.extend x v = m ++ [⟨x, [⟨v, v⟩]⟩])) := by
  refine ⟨?_, ?_, ?_, ?_⟩
  · intro v f a as b bs nid h
    simp only [mergeRowsF]
    rw [← h, Scalar.lt_irrefl]
    simp
  · intro a b v
    exact ⟨rfl, rfl⟩
  · intro cells c x v
    exact ⟨fun hnd m hm => upsertCell_of_mem c x v cells m hnd hm,
      fun h => upsertCell_of_notMem c x v cells h⟩
  · intro m x v
    exact ⟨fun h => MVValue.extend_of_mem m x v h,
      fun h => MVValue.extend_of_notMem m x v h⟩

/-- C1 witness: the amended claim instantiated at concrete inputs. -/
theorem claim_C1_witness :
    (mergeRowsF 7 1 [noRow] [⟨none, 0, Scalar.null, []⟩] 5 =
      (updateRow noRow ⟨none, 0, Scalar.null, []⟩ 7 ::
        (mergeRowsF 7 0 [] [] 5).1, (mergeRowsF 7 0 [] [] 5).2)) ∧
    (upsertCell [(0, [⟨n 1, [⟨0, 0⟩]⟩])] 0 (n 1) 1 =
      [((0 : Nat), [(⟨n 1, [⟨0, 0⟩]⟩ : TSValue)])].map
        (fun p => if p.1 = 0 then (p.1, MVValue.extend p.2 (n 1) 1)
          else p)) ∧
    (upsertCell [] 3 (n 1) 1 = [] ++ [(3, [⟨n 1, [⟨1, 1⟩]⟩])]) ∧
    (MVValue.extend [⟨n 1, [⟨0, 0⟩]⟩] (n 1) 1 =
      [⟨n 1, [⟨0, 0⟩]⟩].map
        (fun tv => if tv.value = n 1 then ⟨tv.value, tv.ts.append 1⟩
          else tv)) ∧
    (MVValue.extend [] (n 1) 1 = [] ++ [⟨n 1, [⟨1, 1⟩]⟩]) :=
  ⟨claim_C1.1 7 0 noRow [] ⟨none, 0, Scalar.null, []⟩ [] 5 rfl,
   (claim_C1.2.2.1 [(0, [⟨n 1, [⟨0, 0⟩]⟩])] 0 (n 1) 1).1 (by decide)
     [⟨n 1, [⟨0, 0⟩]⟩] (by decide),
   (claim_C1.2.2.1 [] 3 (n 1) 1).2 (by decide),
   (claim_C1.2.2.2 [⟨n 1, [⟨0, 0⟩]⟩] (n 1) 1).1 (by decide),
   (claim_C1.2.2.2 [] (n 1) 1).2 (by decide)⟩

/-- C9: in every archive row produced by any sequence of commits (keyed or
un-keyed), the scalars of the TimestampedValues within one MultiVersionValue
are pairwise distinct; and when a value reverts to a scalar it already held,
extending with that scalar adds no new TimestampedValue (the scalar list and
the length of the MultiVersionValue are unchanged — the version joins the
existing TimestampedValue's timestamp). -/
theorem claim_C9 :
    (∀ (ops : List CommitOp) (r : ArchiveRow),
      r ∈ (ops.foldl applyOp Archive.empty).rows →
      r.pos.scalarsNodup ∧ ∀ p ∈ r.cells, MVValue.scalarsNodup p.2) ∧
    (∀ (m : MVValue) (x : Scalar) (v : Nat), x ∈ m.map (·.value) →
      (m.extend x v).map (·.value) = m.map (·.value) ∧
      (m.extend x v).length = m.length) := by
  constructor
  · have main : ∀ (ops : List CommitOp) (A : Archive),
        (∀ r ∈ A.rows, rowOk r) →
        ∀ r ∈ (ops.foldl applyOp A).rows, rowOk r := by
      intro ops
      induction ops with
      | nil => intro A h; exact h
      | cons op rest ih =>
        intro A h
        exact ih (applyOp A op) (applyOp_rowOk A op h)
    intro ops r hr
    exact main ops Archive.empty
      (fun r hr => absurd hr (List.not_mem_nil r)) r hr
  · intro m x v h
    refine ⟨MVValue.map_value_extend_of_mem m x v h, ?_⟩
    rw [MVValue.extend_of_mem m x v h]
    simp

/-- C9 witness: the invariant instantiated at the archive of a single
one-row keyed commit, and the no-growth fact at a concrete
MultiVersionValue. -/
theorem claim_C9_witness :
    (({ rowId := 0, key := t "A", ts := [⟨0, 0⟩],
        pos := [⟨n 0, [⟨0, 0⟩]⟩],
        cells := [(0, [⟨t "A", [⟨0, 0⟩]⟩]), (1, [⟨n 1, [⟨0, 0⟩]⟩])] } :
          ArchiveRow) ∈
      (([CommitOp.keyed ["k", "v"] "k" [[t "A", n 1]]].foldl applyOp
        Archive.empty).rows) ∧
      (MVValue.scalarsNodup [⟨n 0, [⟨0, 0⟩]⟩] ∧
        ∀ p ∈ [((0 : Nat), [(⟨t "A", [⟨0, 0⟩]⟩ : TSValue)]),
          ((1 : Nat), [(⟨n 1, [⟨0, 0⟩]⟩ : TSValue)])],
          MVValue.scalarsNodup p.2)) ∧
    (n 5 ∈ ([⟨n 5, [⟨0, 0⟩]⟩] : MVValue).map (·.value) ∧
      ((MVValue.extend [⟨n 5, [⟨0, 0⟩]⟩] (n 5) 1).map (·.value) =
        ([⟨n 5, [⟨0, 0⟩]⟩] : MVValue).map (·.value) ∧
      (MVValue.extend [⟨n 5, [⟨0, 0⟩]⟩] (n 5) 1).length =
        ([(⟨n 5, [⟨0, 0⟩]⟩ : TSValue)]).length)) :=
  ⟨⟨by decide,
    claim_C9.1 [CommitOp.keyed ["k", "v"] "k" [[t "A", n 1]]]
      { rowId := 0, key := t "A", ts := [⟨0, 0⟩],
        pos := [⟨n 0, [⟨0, 0⟩]⟩],
        cells := [(0, [⟨t "A", [⟨0, 0⟩]⟩]), (1, [⟨n 1, [⟨0, 0⟩]⟩])] }
      (by decide)⟩,
   ⟨by decide, claim_C9.2 [⟨n 5, [⟨0, 0⟩]⟩] (n 5) 1 (by decide)⟩⟩

/-- C10: the table returned by checkout carries row identity in its index:
the labels of the returned rows are exactly the stable row identifiers of
the archive rows alive at the version (as a permutation — the order is by
position), so the index is not renumbered 0..n-1; in the keyed worked
example version 2 checks out with index 0,1,2,4 and version 3 with index
4,2,1,0, and in the row-index example version 3 with 0,4,2,1 and version 4
with 0,4,2,1,3. -/
theorem claim_C10 :
    (∀ (A : Archive) (v : Nat),
      ((A.checkout v).map Prod.fst).Perm
        ((A.rows.filter (fun r => r.ts.contains v)).map (·.rowId))) ∧
    (scenarioA.checkout 2).map Prod.fst = [0, 1, 2, 4] ∧
    (scenarioA.checkout 3).map Prod.fst = [4, 2, 1, 0] ∧
    (scenarioB.checkout 3).map Prod.fst = [0, 4, 2, 1] ∧
    (scenarioB.checkout 4).map Prod.fst = [0, 4, 2, 1, 3] := by
  refine ⟨?_, by decide, by decide, by decide, by decide⟩
  intro A v
  have hp := List.perm_insertionSort outPosLE
    ((A.rows.filter (fun r => r.ts.contains v)).map
      (fun r => rowAt r (A.liveColIds v) v))
  have h1 : (A.checkout v).map Prod.fst =
      (A.checkoutRows v).map (·.rowId) := by
    simp [Archive.checkout]
  have h2 : ((A.rows.filter (fun r => r.ts.contains v)).map
      (fun r => rowAt r (A.liveColIds v) v)).map (·.rowId) =
      (A.rows.filter (fun r => r.ts.contains v)).map (·.rowId) := by
    simp [List.map_map, rowAt]
  rw [h1]
  exact h2 ▸ (hp.map (·.rowId))

/-- C5: for every archive and version `v`, `rollback v` sets the next
version to `v+1`, truncates every timestamp in the archive (row lifetimes,
positions, cells, column lifetimes) to versions `≤ v`, removes rows and
columns whose truncated timestamp is empty, and removes all snapshots above
`v`; in particular, in Scenario C (commit `[(A,1)]`, commit `[(A,1),(B,2)]`,
`rollback 0`) the snapshot listing has exactly one entry, `checkout 0`
returns `[(A,1)]`, and the archive contains exactly one row, with timestamp
`[0,0]`. -/
theorem claim_C5 :
    (∀ (A : Archive) (v : Nat),
      (A.rollback v).nextVersion = v + 1 ∧
      (∀ r ∈ (A.rollback v).rows,
        (∀ w, r.ts.contains w = true → w ≤ v) ∧
        (∀ tv ∈ r.pos, ∀ w, tv.ts.contains w = true → w ≤ v) ∧
        (∀ p ∈ r.cells, ∀ tv ∈ p.2, ∀ w, tv.ts.contains w = true → w ≤ v) ∧
        r.ts ≠ []) ∧
      (∀ c ∈ (A.rollback v).cols,
        (∀ w, c.ts.contains w = true → w ≤ v) ∧ c.ts ≠ []) ∧
      (A.rollback v).snapshots = A.snapshots.filter (fun w => w ≤ v)) ∧
    scenarioC.snapshots = [0] ∧
    scenarioC.checkout 0 = [(0, [t "A", n 1])] ∧
    scenarioC.rows =
      [{ rowId := 0, key := n 0, ts := [⟨0, 0⟩],
         pos := [⟨n 0, [⟨0, 0⟩]⟩],
         cells := [(0, [⟨t "A", [⟨0, 0⟩]⟩]),
                   (1, [⟨n 1, [⟨0, 0⟩]⟩])] }] := by
  refine ⟨?_, by decide, by decide, by decide⟩
  intro A v
  refine ⟨rfl, ?_, ?_, rfl⟩
  · intro r hr
    simp only [Archive.rollback, List.mem_filter, List.mem_map] at hr
    obtain ⟨⟨r0, _, rfl⟩, hne⟩ := hr
    refine ⟨?_, ?_, ?_, ?_⟩
    · intro w hw
      exact Timestamp.rollback_le r0.ts v w hw
    · intro tv htv w hw
      simp only [ArchiveRow.rollback, MVValue.rollback, List.mem_filter,
        List.mem_map] at htv
      obtain ⟨⟨tv0, _, rfl⟩, _⟩ := htv
      exact Timestamp.rollback_le tv0.ts v w hw
    · intro p hp tv htv w hw
      simp only [ArchiveRow.rollback, List.mem_map] at hp
      obtain ⟨p0, _, rfl⟩ := hp
      simp only [MVValue.rollback, List.mem_filter, List.mem_map] at htv
      obtain ⟨⟨tv0, _, rfl⟩, _⟩ := htv
      exact Timestamp.rollback_le tv0.ts v w hw
    · intro hempty
      simp only [ArchiveRow.rollback] at hne hempty
      rw [hempty] at hne
      simp at hne
  · intro c hc
    simp only [Archive.rollback, List.mem_filter, List.mem_map] at hc
    obtain ⟨⟨c0, _, rfl⟩, hne⟩ := hc
    refine ⟨?_, ?_⟩
    · intro w hw
      exact Timestamp.rollback_le c0.ts v w hw
    · intro hempty
      simp only [ArchiveColumn.rollback] at hne hempty
      rw [hempty] at hne
      simp at hne

/-- C5 witness: the rollback properties instantiated at the Scenario C
archive before the rollback, at its surviving row and version 0. -/
theorem claim_C5_witness :
    (scenarioCPre.rollback 0).nextVersion = 0 + 1 ∧
    (scenarioCPre.rollback 0).snapshots =
      scenarioCPre.snapshots.filter (fun w => w ≤ 0) ∧
    (0 : Nat) ≤ 0 := by
  have h := claim_C5.1 scenarioCPre 0
  refine ⟨h.1, h.2.2.2, ?_⟩
  exact (h.2.1
    { rowId := 0, key := n 0, ts := [⟨0, 0⟩],
      pos := [⟨n 0, [⟨0, 0⟩]⟩],
      cells := [(0, [⟨t "A", [⟨0, 0⟩]⟩]), (1, [⟨n 1, [⟨0, 0⟩]⟩])] }
    (by decide)).1 0 (by decide)

/-- C6: committing a snapshot whose rows contain a duplicate primary-key
value into a keyed archive raises DuplicateKeyError, and the facade leaves
the archive state exactly as it was before the call; in particular Scenario
D (commit `[(A,1),(A,2)]` keyed by the first column into the empty archive)
errors and leaves the archive empty. -/
theorem claim_C6 :
    (∀ (A : Archive) (names : List String) (keyName : String)
        (tbl : List (List Scalar)) (kIdx : Nat),
      names.indexOf? keyName = some kIdx →
      ¬ (tbl.map (fun row => row.getD kIdx Scalar.null)).Nodup →
      commitKeyed A names keyName tbl = .error .duplicateKeyError ∧
      tryCommitKeyed A names keyName tbl = A) ∧
    commitKeyed Archive.empty ["k", "v"] "k" [[t "A", n 1], [t "A", n 2]] =
      .error .duplicateKeyError ∧
    scenarioD = Archive.empty := by
  refine ⟨?_, by rfl, by decide⟩
  intro A names keyName tbl kIdx hidx hdup
  have hkeys : ∀ colIds : List Nat,
      (keyedDocRows tbl colIds kIdx).map (·.key) =
        tbl.map (fun row => row.getD kIdx Scalar.null) := by
    intro colIds
    simp only [keyedDocRows, List.map_map]
    have := List.enum_map_snd tbl
    calc tbl.enum.map ((fun b => b.key) ∘ (fun p =>
          ({ rid := none, pos := p.1, key := p.2.getD kIdx Scalar.null,
             cells := colIds.zip p.2 } : DocRow)))
        = tbl.enum.map ((fun row => row.getD kIdx Scalar.null) ∘ Prod.snd) := rfl
      _ = (tbl.enum.map Prod.snd).map
            (fun row => row.getD kIdx Scalar.null) := by
          rw [List.map_map]
      _ = tbl.map (fun row => row.getD kIdx Scalar.null) := by rw [this]
  have herr : commitKeyed A names keyName tbl = .error .duplicateKeyError := by
    simp only [commitKeyed, hidx]
    rw [if_neg]
    rw [hkeys]
    exact hdup
  refine ⟨herr, ?_⟩
  simp only [tryCommitKeyed, herr]

/-- C6 witness: the duplicate-key behaviour instantiated at Scenario D's
inputs. -/
theorem claim_C6_witness :
    commitKeyed Archive.empty ["k", "v"] "k" [[t "A", n 1], [t "A", n 2]] =
      .error .duplicateKeyError ∧
    tryCommitKeyed Archive.empty ["k", "v"] "k" [[t "A", n 1], [t "A", n 2]] =
      Archive.empty :=
  claim_C6.1 Archive.empty ["k", "v"] "k" [[t "A", n 1], [t "A", n 2]] 0
    (by decide) (by decide)

/-- C4: in an un-keyed archive, a committed document row with a null row
index is treated as new: the document preparation assigns it a fresh row id
(at least the fresh-id floor, with key equal to that id), the merge emits a
brand-new archive row with that id and timestamp `[v,v]` whenever its key
matches no archive row, and — concretely — committing a row identical to an
existing one but with a null index creates a second row under a fresh id
rather than merging into the identical existing row. -/
theorem claim_C4 :
    (∀ (tbl : List (Option Nat × List Scalar)) (colIds : List Nat)
        (pos nid : Nat) (vals : List Scalar),
      (none, vals) ∈ tbl →
      ∃ b ∈ (unkeyedDocRows tbl colIds pos nid).1,
        b.cells = colIds.zip vals ∧
        ∃ id, b.rid = some id ∧ b.key = .int id ∧ nid ≤ id) ∧
    (∀ (v f : Nat) (as : List ArchiveRow) (bs : List DocRow) (nid : Nat)
        (b : DocRow) (id : Nat),
      as.length + bs.length ≤ f → b ∈ bs → b.rid = some id →
      b.key = .int id → (∀ a ∈ as, a.key ≠ Scalar.int id) →
      newRow id b v ∈ (mergeRowsF v f as bs nid).1) ∧
    (commitUnkeyed (commitUnkeyed Archive.empty ["c"] [(some 0, [t "X"])])
        ["c"] [(some 0, [t "X"]), (none, [t "X"])]).rows =
      [{ rowId := 0, key := n 0, ts := [⟨0, 1⟩],
         pos := [⟨n 0, [⟨0, 1⟩]⟩],
         cells := [(0, [⟨t "X", [⟨0, 1⟩]⟩])] },
       { rowId := 1, key := n 1, ts := [⟨1, 1⟩],
         pos := [⟨n 1, [⟨1, 1⟩]⟩],
         cells := [(0, [⟨t "X", [⟨1, 1⟩]⟩])] }] := by
  refine ⟨?_, ?_, by decide⟩
  · intro tbl
    induction tbl with
    | nil =>
      intro colIds pos nid vals hmem
      cases hmem
    | cons q rest ih =>
      intro colIds pos nid vals hmem
      obtain ⟨idx, vals0⟩ := q
      rcases List.mem_cons.mp hmem with heq | hmem'
      · injection heq with h1 h2
        subst h1; subst h2
        refine ⟨⟨some nid, pos, .int nid, colIds.zip vals⟩, ?_, rfl, nid,
          rfl, rfl, le_refl nid⟩
        simp [unkeyedDocRows]
      · obtain ⟨b, hb, hcells, id, hrid, hkey, hle⟩ :=
          ih colIds (pos + 1) (if idx.isNone then nid + 1 else nid) vals hmem'
        refine ⟨b, ?_, hcells, id, hrid, hkey, ?_⟩
        · simp only [unkeyedDocRows]
          exact List.mem_cons_of_mem _ hb
        · exact le_trans (by split <;> omega) hle
  · intro v f
    induction f with
    | zero =>
      intro as bs nid b id hlen hmem _ _ _
      have : bs = [] := by
        cases bs with
        | nil => rfl
        | cons x xs => simp at hlen
      subst this
      cases hmem
    | succ f ih =>
      intro as bs nid b id hlen hmem hrid hkey hdiff
      cases bs with
      | nil => cases hmem
      | cons b0 bs =>
        cases as with
        | nil =>
          simp only [mergeRowsF]
          rcases List.mem_cons.mp hmem with heq | hmem'
          · subst heq
            rw [hrid]
            exact List.mem_cons_self _ _
          · refine List.mem_cons_of_mem _ ?_
            exact ih [] bs _ b id (by simp at hlen ⊢; omega) hmem' hrid hkey
              (fun a ha => absurd ha (List.not_mem_nil a))
        | cons a as =>
          simp only [mergeRowsF]
          by_cases h1 : Scalar.lt a.key b0.key
          · rw [if_pos (by simpa using h1)]
            refine List.mem_cons_of_mem _ ?_
            exact ih as (b0 :: bs) nid b id (by simp at hlen ⊢; omega) hmem
              hrid hkey (fun x hx => hdiff x (List.mem_cons_of_mem a hx))
          · rw [if_neg (by simpa using h1)]
            by_cases h2 : Scalar.lt b0.key a.key
            · rw [if_pos (by simpa using h2)]
              rcases List.mem_cons.mp hmem with heq | hmem'
              · subst heq
                rw [hrid]
                exact List.mem_cons_self _ _
              · refine List.mem_cons_of_mem _ ?_
                exact ih (a :: as) bs _ b id (by simp at hlen ⊢; omega) hmem'
                  hrid hkey hdiff
            · rw [if_neg (by simpa using h2)]
              rcases List.mem_cons.mp hmem with heq | hmem'
              · subst heq
                rw [hkey] at h1 h2
                have hne := hdiff a (List.mem_cons_self a as)
                have hcx : Scalar.lt a.key (Scalar.int id) = true ∨
                    Scalar.lt (Scalar.int id) a.key = true := by
                  cases ha : a.key with
                  | null => left; simp [Scalar.lt, Scalar.rank]
                  | int m =>
                    have hm : m ≠ id := by
                      intro hmeq
                      exact hne (by rw [ha, hmeq])
                    rcases lt_or_gt_of_ne hm with hlt | hgt
                    · left; simp [Scalar.lt]; omega
                    · right; simp [Scalar.lt]; omega
                  | text s => right; simp [Scalar.lt, Scalar.rank]
                rcases hcx with hcx | hcx
                · exact absurd hcx (by simpa using h1)
                · exact absurd hcx (by simpa using h2)
              · refine List.mem_cons_of_mem _ ?_
                exact ih as bs nid b id (by simp at hlen ⊢; omega) hmem' hrid
                  hkey (fun x hx => hdiff x (List.mem_cons_of_mem a hx))

/-- C4 witness: the fresh-row behaviour instantiated at a concrete
single-row document with a null index and a concrete merge. -/
theorem claim_C4_witness :
    (∃ b ∈ (unkeyedDocRows [(none, [t "X"])] [0] 0 1).1,
      b.cells = [(0, t "X")] ∧
      ∃ id, b.rid = some id ∧ b.key = .int id ∧ 1 ≤ id) ∧
    newRow 1 ⟨some 1, 0, n 1, [(0, t "X")]⟩ 2 ∈
      (mergeRowsF 2 2
        [⟨0, n 0, [⟨0, 0⟩], [⟨n 0, [⟨0, 0⟩]⟩], [(0, [⟨t "X", [⟨0, 0⟩]⟩])]⟩]
        [⟨some 1, 0, n 1, [(0, t "X")]⟩]
        5).1 := by
  constructor
  · have h := claim_C4.1 [(none, [t "X"])] [0] 0 1 [t "X"] (by decide)
    simpa using h
  · exact claim_C4.2.1 2 2
      [⟨0, n 0, [⟨0, 0⟩], [⟨n 0, [⟨0, 0⟩]⟩], [(0, [⟨t "X", [⟨0, 0⟩]⟩])]⟩]
      [⟨some 1, 0, n 1, [(0, t "X")]⟩]
      5 ⟨some 1, 0, n 1, [(0, t "X")]⟩ 1
      (by decide) (by decide) rfl rfl (by decide)

/-- C8: in the persisted serialization, every MULTI-VALUE is a JSON array of
at least two SINGLE-VALUE objects (a MultiVersionValue with a single version
serializes as a plain SINGLE-VALUE object instead), and every SINGLE-VALUE
nested in a parent whose timestamp equals its own omits the `t` field (the
timestamp is inherited from the parent); the serialization of the Alice row
reproduces the example record of docs/serialize.rst, including the elided
timestamp on the Name cell. -/
theorem claim_C8 :
    (∀ (parent : Timestamp) (m : MVValue), m ≠ [] →
      (∃ tv, m = [tv] ∧
        serializeValue parent m = serializeSingle parent tv) ∨
      (2 ≤ m.length ∧
        serializeValue parent m = .jarr (m.map (serializeSingle parent)))) ∧
    (∀ (parent : Timestamp) (tv : TSValue),
      (tv.ts = parent →
        serializeSingle parent tv =
          .jobj [("v", serializeScalar tv.value)]) ∧
      (tv.ts ≠ parent →
        serializeSingle parent tv =
          .jobj [("t", serializeTimestamp tv.ts),
                 ("v", serializeScalar tv.value)])) ∧
    serializeRow aliceRecorded =
      .jobj [("r", .jint 0),
             ("t", .jarr [.jarr [.jint 0, .jint 3]]),
             ("p", .jarr
               [.jobj [("t", .jarr [.jarr [.jint 0, .jint 2]]),
                       ("v", .jint 0)],
                .jobj [("t", .jarr [.jarr [.jint 3, .jint 3]]),
                       ("v", .jint 3)]]),
             ("c", .jobj
               [("0", .jobj [("v", .jstr "Alice")]),
                ("1", .jarr
                  [.jobj [("t", .jarr [.jarr [.jint 0, .jint 0],
                                       .jarr [.jint 2, .jint 3]]),
                          ("v", .jint 32)],
                   .jobj [("t", .jarr [.jarr [.jint 1, .jint 1]]),
                          ("v", .jint 33)]])]),
             ("k", .jstr "Alice")] := by
  refine ⟨?_, ?_, rfl⟩
  · intro parent m hne
    match m with
    | [] => exact absurd rfl hne
    | [tv] => exact Or.inl ⟨tv, rfl, rfl⟩
    | tv1 :: tv2 :: rest =>
      refine Or.inr ⟨by simp, rfl⟩
  · intro parent tv
    constructor
    · intro h
      simp [serializeSingle, h]
    · intro h
      simp [serializeSingle, h]

/-- C8 witness: a singleton MultiVersionValue serializes as a SINGLE-VALUE
object, and a SINGLE-VALUE whose timestamp equals the parent's omits `t`. -/
theorem claim_C8_witness :
    ((∃ tv, ([⟨n 5, [⟨0, 0⟩]⟩] : MVValue) = [tv] ∧
        serializeValue [⟨0, 0⟩] [⟨n 5, [⟨0, 0⟩]⟩] =
          serializeSingle [⟨0, 0⟩] tv) ∨
      (2 ≤ ([⟨n 5, [⟨0, 0⟩]⟩] : MVValue).length ∧
        serializeValue [⟨0, 0⟩] [⟨n 5, [⟨0, 0⟩]⟩] =
          .jarr (([⟨n 5, [⟨0, 0⟩]⟩] : MVValue).map
            (serializeSingle [⟨0, 0⟩])))) ∧
    serializeSingle [⟨0, 0⟩] ⟨n 5, [⟨0, 0⟩]⟩ =
      .jobj [("v", serializeScalar (n 5))] :=
  ⟨claim_C8.1 [⟨0, 0⟩] [⟨n 5, [⟨0, 0⟩]⟩] (by decide),
   (claim_C8.2.1 [⟨0, 0⟩] ⟨n 5, [⟨0, 0⟩]⟩).1 rfl⟩

/-- C3: for every archive and version, checkout returns exactly the rows
whose timestamp contains the version (as a permutation of the live rows with
their extracted scalars), ordered ascending by extracted position; the
extraction of a MultiVersionValue returns the value of the unique element
whose timestamp contains the version; and in the keyed worked example at
version 3 the rows come out in position order 0,1,2,3 while their row ids
are 4,2,1,0 (so the order is not by row id or key). -/
theorem claim_C3 :
    (∀ (A : Archive) (v : Nat),
      (A.checkoutRows v).Perm
        ((A.rows.filter (fun r => r.ts.contains v)).map
          (fun r => rowAt r (A.liveColIds v) v)) ∧
      (A.checkoutRows v).Sorted outPosLE) ∧
    (∀ (m : MVValue) (v : Nat) (tv : TSValue), tv ∈ m →
      tv.ts.contains v = true →
      (∀ tv1 ∈ m, tv1.ts.contains v = true → tv1 = tv) →
      m.valueAt v = some tv.value) ∧
    (scenarioA.checkoutRows 3).map (·.pos) = [0, 1, 2, 3] ∧
    (scenarioA.checkoutRows 3).map (·.rowId) = [4, 2, 1, 0] := by
  refine ⟨?_, ?_, by decide, by decide⟩
  · intro A v
    exact ⟨List.perm_insertionSort outPosLE _,
      List.sorted_insertionSort outPosLE _⟩
  · intro m
    induction m with
    | nil => intro v tv h; cases h
    | cons tv0 rest ih =>
      intro v tv hmem hc huniq
      by_cases h0 : tv0.ts.contains v = true
      · have heq : tv0 = tv := huniq tv0 (List.mem_cons_self tv0 rest) h0
        unfold MVValue.valueAt
        rw [List.find?_cons_of_pos (p := fun tv => tv.ts.contains v) rest h0,
          heq]
        rfl
      · rcases List.mem_cons.mp hmem with heq | hmem1
        · subst heq
          exact absurd hc h0
        · have hrec := ih v tv hmem1 hc
            (fun tv1 h1 hc1 => huniq tv1 (List.mem_cons_of_mem _ h1) hc1)
          unfold MVValue.valueAt at hrec ⊢
          rw [List.find?_cons_of_neg (p := fun tv => tv.ts.contains v) rest
            (by simpa using h0)]
          exact hrec

/-- C3 witness: the checkout characterization instantiated at the keyed
worked example, version 3, and the extraction at a concrete two-version
MultiVersionValue. -/
theorem claim_C3_witness :
    ((scenarioA.checkoutRows 3).Perm
      ((scenarioA.rows.filter (fun r => r.ts.contains 3)).map
        (fun r => rowAt r (scenarioA.liveColIds 3) 3)) ∧
      (scenarioA.checkoutRows 3).Sorted outPosLE) ∧
    MVValue.valueAt [⟨n 7, [⟨0, 1⟩]⟩, ⟨n 9, [⟨2, 2⟩]⟩] 2 = some (n 9) :=
  ⟨claim_C3.1 scenarioA 3,
   claim_C3.2.1 [⟨n 7, [⟨0, 1⟩]⟩, ⟨n 9, [⟨2, 2⟩]⟩] 2 ⟨n 9, [⟨2, 2⟩]⟩
     (by decide) (by decide) (by decide)⟩

set_option maxHeartbeats 1000000 in
/-- C7: for every archive and version satisfying the round-trip
well-formedness preconditions, committing the checked-out snapshot of
version `v` unchanged succeeds and yields an archive whose snapshot listing
gains exactly the new version, whose version counter advances by one, whose
checkout at the new version equals the checkout at `v`, and in which no cell
MultiVersionValue grows: every cell of every row maps pointwise onto the old
cell, with each TimestampedValue keeping its value and either keeping its
timestamp or having the new version appended to it. -/
theorem claim_C7 (A : Archive) (kname : String) (v kIdx : Nat)
    (hpre : C7Pre A kname v kIdx) :
    ∃ A1, recommit A kname v = .ok A1 ∧
      A1.snapshots = A.snapshots ++ [A.nextVersion] ∧
      A1.nextVersion = A.nextVersion + 1 ∧
      A1.checkout A.nextVersion = A.checkout v ∧
      ∀ r1 ∈ A1.rows, ∃ r ∈ A.rows, r1.rowId = r.rowId ∧
        ∀ c m1, (c, m1) ∈ r1.cells → ∃ m, (c, m) ∈ r.cells ∧
          List.Forall₂ (fun tv1 tv => tv1.value = tv.value ∧
            (tv1.ts = tv.ts ∨ tv1.ts = tv.ts.append A.nextVersion)) m1 m := by
  obtain ⟨hP, hB, hCnd, hAl, hAl2, hIdx, hKey, hCells⟩ := hpre
  -- step 1: key bookkeeping
  have hLperm : (A.checkoutRows v).Perm
      ((A.rows.filter (fun r => r.ts.contains v)).map
        (fun r => rowAt r (A.liveColIds v) v)) :=
    List.perm_insertionSort outPosLE _
  have hkeys1 : (docOf A v kIdx).map (·.key) =
      (A.checkoutRows v).map (fun o => o.values.getD kIdx Scalar.null) := by
    simp only [docOf]
    rw [keyedDocRows_keys, List.map_map]
    rfl
  have hkeys2 : (((A.rows.filter (fun r => r.ts.contains v)).map
      (fun r => rowAt r (A.liveColIds v) v)).map
        (fun o => o.values.getD kIdx Scalar.null)) =
      (A.rows.filter (fun r => r.ts.contains v)).map (·.key) := by
    rw [List.map_map]
    apply List.map_congr_left
    intro r hr
    have hr2 := List.mem_filter.mp hr
    exact hKey r hr2.1 hr2.2
  have hkeysperm : ((docOf A v kIdx).map (·.key)).Perm
      ((A.rows.filter (fun r => r.ts.contains v)).map (·.key)) := by
    rw [hkeys1]
    exact hkeys2 ▸ (hLperm.map _)
  have hlivekeysnd : ((A.rows.filter (fun r => r.ts.contains v)).map
      (·.key)).Nodup :=
    rows_keys_nodup _ (hP.sublist (List.filter_sublist _))
  have hdocnd : ((docOf A v kIdx).map (·.key)).Nodup :=
    (hkeysperm.nodup_iff).mpr hlivekeysnd
  -- step 2: the sorted document and its find? characterization
  have hsrtperm : (sortedDocOf A v kIdx).Perm (docOf A v kIdx) :=
    List.perm_insertionSort docKeyLE _
  have hsrtkeys_nd : ((sortedDocOf A v kIdx).map (·.key)).Nodup :=
    ((hsrtperm.map _).nodup_iff).mpr hdocnd
  have hdoc_eq : docOf A v kIdx = (A.checkoutRows v).enum.map (fun p =>
      ({ rid := none, pos := p.1,
         key := p.2.values.getD kIdx Scalar.null,
         cells := (A.liveColIds v).zip p.2.values } : DocRow)) := by
    simp only [docOf, keyedDocRows, List.enum_map, List.map_map]
    rfl
  have h_live : ∀ r ∈ A.rows, r.ts.contains v = true →
      ∃ k, (k, rowAt r (A.liveColIds v) v) ∈ (A.checkoutRows v).enum ∧
        (sortedDocOf A v kIdx).find? (fun b => decide (b.key = r.key)) =
          some (⟨none, k, r.key,
            (A.liveColIds v).zip (rowAt r (A.liveColIds v) v).values⟩ :
              DocRow) := by
    intro r hr hlive
    have hLmem : rowAt r (A.liveColIds v) v ∈ A.checkoutRows v :=
      hLperm.mem_iff.mpr
        (List.mem_map.mpr ⟨r, List.mem_filter.mpr ⟨hr, hlive⟩, rfl⟩)
    obtain ⟨k, hk⟩ := mem_enum_of_mem _ _ hLmem
    refine ⟨k, hk, ?_⟩
    have hbmem : (⟨none, k, r.key,
        (A.liveColIds v).zip (rowAt r (A.liveColIds v) v).values⟩ : DocRow) ∈
        docOf A v kIdx := by
      rw [hdoc_eq]
      refine List.mem_map.mpr ⟨(k, rowAt r (A.liveColIds v) v), hk, ?_⟩
      have hkey := hKey r hr hlive
      show (⟨none, k,
        (rowAt r (A.liveColIds v) v).values.getD kIdx Scalar.null,
        (A.liveColIds v).zip (rowAt r (A.liveColIds v) v).values⟩ :
          DocRow) = _
      rw [hkey]
    have hbmem2 : (⟨none, k, r.key,
        (A.liveColIds v).zip (rowAt r (A.liveColIds v) v).values⟩ : DocRow) ∈
        sortedDocOf A v kIdx := by
      unfold sortedDocOf
      rw [List.mem_insertionSort]
      exact hbmem
    apply find?_unique _ _ _ hbmem2 (by simp)
    intro y hy hpy
    have hyk : y.key = r.key := by simpa using hpy
    exact List.inj_on_of_nodup_map hsrtkeys_nd hy hbmem2 (by simpa using hyk)
  have h_dead : ∀ r ∈ A.rows, r.ts.contains v = false →
      (sortedDocOf A v kIdx).find? (fun b => decide (b.key = r.key)) =
        none := by
    intro r hr hdead
    apply find?_none
    intro y hy
    have hymem : y ∈ docOf A v kIdx := by
      rw [← List.mem_insertionSort docKeyLE]
      exact hy
    have hyk : y.key ∈ (docOf A v kIdx).map (·.key) :=
      List.mem_map.mpr ⟨y, hymem, rfl⟩
    have hyk2 : y.key ∈
        (A.rows.filter (fun r => r.ts.contains v)).map (·.key) :=
      hkeysperm.mem_iff.mp hyk
    obtain ⟨r2, hr2, hr2k⟩ := List.mem_map.mp hyk2
    have hr2f := List.mem_filter.mp hr2
    have hknd : (A.rows.map (·.key)).Nodup := rows_keys_nodup _ hP
    simp only [decide_eq_false_iff_not]
    intro heq
    have hr2r : r2 = r :=
      List.inj_on_of_nodup_map hknd hr2f.1 hr (hr2k.trans heq)
    rw [hr2r] at hr2f
    rw [hr2f.2] at hdead
    cases hdead
  -- step 3: the commit equation
  have hsp : (sortedDocOf A v kIdx).Pairwise
      (fun a b => Scalar.lt a.key b.key = true) :=
    sorted_doc_pairwise _ (List.sorted_insertionSort docKeyLE _) hsrtkeys_nd
  have hsub : ∀ b ∈ sortedDocOf A v kIdx, ∃ a ∈ A.rows, a.key = b.key := by
    intro b hb
    have hbdoc : b ∈ docOf A v kIdx := by
      rw [← List.mem_insertionSort docKeyLE]
      exact hb
    have hbk : b.key ∈ (docOf A v kIdx).map (·.key) :=
      List.mem_map.mpr ⟨b, hbdoc, rfl⟩
    have hbk2 := hkeysperm.mem_iff.mp hbk
    obtain ⟨r2, hr2, hr2k⟩ := List.mem_map.mp hbk2
    exact ⟨r2, (List.mem_filter.mp hr2).1, hr2k⟩
  have hmerge : mergeRows A.nextVersion A.rows (sortedDocOf A v kIdx)
      A.nextRowId = (A.rows.map (updOf A v kIdx), A.nextRowId) :=
    mergeRowsF_update A.nextVersion
      (A.rows.length + (sortedDocOf A v kIdx).length) A.rows
      (sortedDocOf A v kIdx) A.nextRowId (le_refl _) hP hsp hsub
  have hcommit : recommit A kname v = Except.ok
      { cols := (alignSchema A.cols (A.liveColNames v) A.nextVersion
          A.nextColId 0).1,
        rows := A.rows.map (updOf A v kIdx),
        snapshots := A.snapshots ++ [A.nextVersion],
        nextRowId := A.nextRowId,
        nextColId := (alignSchema A.cols (A.liveColNames v) A.nextVersion
          A.nextColId 0).2.2,
        nextVersion := A.nextVersion + 1 } := by
    simp only [recommit, commitKeyed, hIdx, hAl]
    rw [if_pos (show ((keyedDocRows ((A.checkoutRows v).map (·.values))
      (A.liveColIds v) kIdx).map (·.key)).Nodup from hdocnd)]
    have hms : (keyedDocRows ((A.checkoutRows v).map (·.values))
        (A.liveColIds v) kIdx).insertionSort docKeyLE =
        sortedDocOf A v kIdx := rfl
    rw [hms, hmerge]
  -- step 4: no cell MultiVersionValue grows
  have hgrowth : ∀ r1 ∈ A.rows.map (updOf A v kIdx),
      ∃ r ∈ A.rows, r1.rowId = r.rowId ∧
        ∀ c m1, (c, m1) ∈ r1.cells → ∃ m, (c, m) ∈ r.cells ∧
          List.Forall₂ (fun tv1 tv => tv1.value = tv.value ∧
            (tv1.ts = tv.ts ∨ tv1.ts = tv.ts.append A.nextVersion)) m1 m := by
    intro r1 hr1
    obtain ⟨r, hr, hupd⟩ := List.mem_map.mp hr1
    refine ⟨r, hr, ?_, ?_⟩
    · rw [← hupd]
      unfold updOf
      rcases hfe : (sortedDocOf A v kIdx).find?
          (fun b => decide (b.key = r.key)) with _ | b
      · rw [hfe]
      · rw [hfe]
        rfl
    · intro c m1 hm1
      rcases hlv : r.ts.contains v with _ | _
      · -- dead row: untouched
        have hid : updOf A v kIdx r = r := by
          unfold updOf
          rw [h_dead r hr hlv]
        have hrr1 : r1 = r := hupd.symm.trans hid
        rw [hrr1] at hm1
        exact ⟨m1, hm1, List.forall₂_same.mpr (fun tv _ => ⟨rfl, Or.inl rfl⟩)⟩
      · -- live row: updated in place
        obtain ⟨k, hk, hfind⟩ := h_live r hr hlv
        have hupd2 : updOf A v kIdx r = updateRow r
            (⟨none, k, r.key, (A.liveColIds v).zip
              (rowAt r (A.liveColIds v) v).values⟩ : DocRow)
            A.nextVersion := by
          unfold updOf
          rw [hfind]
        rw [hupd2] at hupd
        have hvals : (rowAt r (A.liveColIds v) v).values =
            (A.liveColIds v).map (fun c =>
              (((r.cells.lookup c).getD []).valueAt v).getD .null) := rfl
        have hbc2 : (A.liveColIds v).zip
            (rowAt r (A.liveColIds v) v).values =
            (A.liveColIds v).map (fun c => (c,
              (((r.cells.lookup c).getD []).valueAt v).getD .null)) := by
          rw [hvals, zip_self_map]
        have hbids : ((A.liveColIds v).zip
            (rowAt r (A.liveColIds v) v).values).map Prod.fst =
            A.liveColIds v := by
          rw [hbc2, List.map_map]
          exact List.map_id'' (fun x => rfl) _
        have hcellsr := hCells r hr hlv
        have hmcells : r1.cells = extendCells r.cells
            ((A.liveColIds v).zip (rowAt r (A.liveColIds v) v).values)
            A.nextVersion := by
          rw [← hupd]
          rfl
        rw [hmcells] at hm1
        have hg := extendCells_growth _ r.cells A.nextVersion hcellsr.1
          (by
            intro cc hcc
            rw [hbids] at hcc
            exact (hcellsr.2 cc hcc).1)
          (by rw [hbids]; exact hCnd) c m1 hm1
        obtain ⟨m, hmmem, hcase⟩ := hg
        refine ⟨m, hmmem, ?_⟩
        rcases hcase with rfl | ⟨x, hx, hext⟩
        · exact List.forall₂_same.mpr (fun tv _ => ⟨rfl, Or.inl rfl⟩)
        · -- the extended cell reuses the value extracted at v
          rw [hbc2] at hx
          obtain ⟨c2, hc2, hc2eq⟩ := List.mem_map.mp hx
          have hc2c : c2 = c := congrArg Prod.fst hc2eq
          rw [hc2c] at hc2 hc2eq
          have hxval : x = (((r.cells.lookup c).getD []).valueAt v).getD
              .null := (congrArg Prod.snd hc2eq).symm
          have hlk : r.cells.lookup c = some m :=
            lookup_of_mem_nodup r.cells c m hcellsr.1 hmmem
          have hsome := (hcellsr.2 c hc2).2
          rw [hlk] at hxval hsome
          simp only [Option.getD_some] at hxval hsome
          obtain ⟨x0, hx0⟩ := Option.isSome_iff_exists.mp hsome
          rw [hx0] at hxval
          simp only [Option.getD_some] at hxval
          have hxmem : x ∈ m.map (·.value) := by
            rw [hxval]
            exact MVValue.valueAt_mem m v x0 hx0
          rw [hext]
          exact extend_forall₂ m x A.nextVersion hxmem
  -- step 5: the round-trip checkout
  have hrowsnd : A.rows.Nodup :=
    hP.imp (fun hab he =>
      Scalar.ne_of_lt _ _ hab (congrArg ArchiveRow.key he))
  have hlivend : (A.rows.filter (fun r => r.ts.contains v)).Nodup :=
    List.Nodup.sublist (List.filter_sublist _) hrowsnd
  have hvalinj : ∀ x ∈ A.rows.filter (fun r => r.ts.contains v),
      ∀ y ∈ A.rows.filter (fun r => r.ts.contains v),
      (rowAt x (A.liveColIds v) v).values =
        (rowAt y (A.liveColIds v) v).values → x = y := by
    intro x hx y hy hvv
    apply List.inj_on_of_nodup_map hlivekeysnd hx hy
    have hx2 := List.mem_filter.mp hx
    have hy2 := List.mem_filter.mp hy
    show x.key = y.key
    rw [← hKey x hx2.1 hx2.2, ← hKey y hy2.1 hy2.2, hvv]
  have hMpt : ∀ r ∈ A.rows.filter (fun r => r.ts.contains v),
      ∃ k, (k, rowAt r (A.liveColIds v) v) ∈ (A.checkoutRows v).enum ∧
        rowAt (updOf A v kIdx r) (A.liveColIds v) A.nextVersion =
          (⟨r.rowId, ((k : Nat) : Int),
            (rowAt r (A.liveColIds v) v).values⟩ : OutRow) := by
    intro r hrf
    have hr := (List.mem_filter.mp hrf).1
    have hlv := (List.mem_filter.mp hrf).2
    obtain ⟨k, hk, hfind⟩ := h_live r hr hlv
    refine ⟨k, hk, ?_⟩
    have hupd2 : updOf A v kIdx r = updateRow r
        (⟨none, k, r.key, (A.liveColIds v).zip
          (rowAt r (A.liveColIds v) v).values⟩ : DocRow) A.nextVersion := by
      unfold updOf
      rw [hfind]
    rw [hupd2]
    have hBr := hB r hr
    simp only [rowBelow, Bool.and_eq_true] at hBr
    exact rowAt_updateRow r _ (A.liveColIds v) v A.nextVersion hBr.1.2
      (hCells r hr hlv).1
      (fun p hp => List.all_eq_true.mp hBr.2 p hp)
      (fun c hc => (hCells r hr hlv).2 c hc) hCnd rfl
  have hLnd : (A.checkoutRows v).Nodup :=
    hLperm.nodup_iff.mpr
      (List.Nodup.map_on
        (fun x hx y hy hxy =>
          hvalinj x hx y hy (congrArg OutRow.values hxy)) hlivend)
  have henp : (A.checkoutRows v).enum.Pairwise (fun p q => p.1 < q.1) :=
    enumFrom_fst_pairwise _ 0
  have hLfstnd : ((A.checkoutRows v).enum.map Prod.fst).Nodup :=
    List.pairwise_map.mpr (henp.imp (fun h => Nat.ne_of_lt h))
  have hL'nd : ((A.checkoutRows v).enum.map (fun p =>
      (⟨p.2.rowId, ((p.1 : Nat) : Int), p.2.values⟩ : OutRow))).Nodup := by
    apply List.Nodup.map_on
    · intro x hx y hy hxy
      apply List.inj_on_of_nodup_map hLfstnd hx hy
      have hpp : ((x.1 : Nat) : Int) = ((y.1 : Nat) : Int) :=
        congrArg OutRow.pos hxy
      exact_mod_cast hpp
    · exact henp.imp (fun h he => Nat.ne_of_lt h (congrArg Prod.fst he))
  have hmemMT : ∀ x, x ∈ (A.rows.filter (fun r => r.ts.contains v)).map
      (fun r => rowAt (updOf A v kIdx r) (A.liveColIds v) A.nextVersion) ↔
      x ∈ (A.checkoutRows v).enum.map (fun p =>
        (⟨p.2.rowId, ((p.1 : Nat) : Int), p.2.values⟩ : OutRow)) := by
    intro x
    constructor
    · intro hx
      obtain ⟨r, hrf, hre⟩ := List.mem_map.mp hx
      obtain ⟨k, hk, heq⟩ := hMpt r hrf
      refine List.mem_map.mpr ⟨(k, rowAt r (A.liveColIds v) v), hk, ?_⟩
      rw [← hre, heq]
      rfl
    · intro hx
      obtain ⟨p, hp, hpe⟩ := List.mem_map.mp hx
      have hpsnd : p.2 ∈ A.checkoutRows v := by
        have hmm : p.2 ∈ (A.checkoutRows v).enum.map Prod.snd :=
          List.mem_map.mpr ⟨p, hp, rfl⟩
        rwa [List.enum_map_snd] at hmm
      have hpsnd2 : p.2 ∈ (A.rows.filter (fun r => r.ts.contains v)).map
          (fun r => rowAt r (A.liveColIds v) v) := hLperm.mem_iff.mp hpsnd
      obtain ⟨r, hrf, hre⟩ := List.mem_map.mp hpsnd2
      obtain ⟨k, hk, heq⟩ := hMpt r hrf
      have hsndnd : ((A.checkoutRows v).enum.map Prod.snd).Nodup := by
        rw [List.enum_map_snd]
        exact hLnd
      have hkp : (k, rowAt r (A.liveColIds v) v) = p := by
        apply List.inj_on_of_nodup_map hsndnd hk hp
        show rowAt r (A.liveColIds v) v = p.2
        exact hre
      refine List.mem_map.mpr ⟨r, hrf, ?_⟩
      rw [heq, ← hpe, ← hkp]
      rfl
  have hMnd : ((A.rows.filter (fun r => r.ts.contains v)).map
      (fun r => rowAt (updOf A v kIdx r) (A.liveColIds v)
        A.nextVersion)).Nodup := by
    apply List.Nodup.map_on ?_ hlivend
    intro x hx y hy hxy
    obtain ⟨kx, _, hex⟩ := hMpt x hx
    obtain ⟨ky, _, hey⟩ := hMpt y hy
    rw [hex, hey] at hxy
    have hvv := congrArg OutRow.values hxy
    exact hvalinj x hx y hy hvv
  have hpermM : ((A.rows.filter (fun r => r.ts.contains v)).map
      (fun r => rowAt (updOf A v kIdx r) (A.liveColIds v)
        A.nextVersion)).Perm
      ((A.checkoutRows v).enum.map (fun p =>
        (⟨p.2.rowId, ((p.1 : Nat) : Int), p.2.values⟩ : OutRow))) :=
    (List.perm_ext_iff_of_nodup hMnd hL'nd).mpr hmemMT
  have hpermIS : (((A.rows.filter (fun r => r.ts.contains v)).map
      (fun r => rowAt (updOf A v kIdx r) (A.liveColIds v)
        A.nextVersion)).insertionSort outPosLE).Perm
      ((A.checkoutRows v).enum.map (fun p =>
        (⟨p.2.rowId, ((p.1 : Nat) : Int), p.2.values⟩ : OutRow))) :=
    (List.perm_insertionSort outPosLE _).trans hpermM
  have hL'pos : ((A.checkoutRows v).enum.map (fun p =>
      (⟨p.2.rowId, ((p.1 : Nat) : Int), p.2.values⟩ : OutRow))).Pairwise
      (fun a b => a.pos < b.pos) :=
    List.pairwise_map.mpr (henp.imp (fun h => Int.ofNat_lt.mpr h))
  have hL'posnd : (((A.checkoutRows v).enum.map (fun p =>
      (⟨p.2.rowId, ((p.1 : Nat) : Int), p.2.values⟩ : OutRow))).map
        (·.pos)).Nodup :=
    List.pairwise_map.mpr (hL'pos.imp (fun h => ne_of_lt h))
  have hMISposnd : ((((A.rows.filter (fun r => r.ts.contains v)).map
      (fun r => rowAt (updOf A v kIdx r) (A.liveColIds v)
        A.nextVersion)).insertionSort outPosLE).map (·.pos)).Nodup :=
    ((hpermIS.map _).nodup_iff).mpr hL'posnd
  have hMstrict : (((A.rows.filter (fun r => r.ts.contains v)).map
      (fun r => rowAt (updOf A v kIdx r) (A.liveColIds v)
        A.nextVersion)).insertionSort outPosLE).Pairwise
      (fun a b => a.pos < b.pos) := by
    have hle := List.sorted_insertionSort outPosLE
      ((A.rows.filter (fun r => r.ts.contains v)).map
        (fun r => rowAt (updOf A v kIdx r) (A.liveColIds v) A.nextVersion))
    have hne : (((A.rows.filter (fun r => r.ts.contains v)).map
        (fun r => rowAt (updOf A v kIdx r) (A.liveColIds v)
          A.nextVersion)).insertionSort outPosLE).Pairwise
        (fun a b => a.pos ≠ b.pos) := List.pairwise_map.mp hMISposnd
    exact (hle.and hne).imp (fun hab => lt_of_le_of_ne hab.1 hab.2)
  haveI : IsAntisymm OutRow (fun a b => a.pos < b.pos) :=
    ⟨fun a b h1 h2 => absurd (lt_trans h1 h2) (lt_irrefl _)⟩
  have heqsort : ((A.rows.filter (fun r => r.ts.contains v)).map
      (fun r => rowAt (updOf A v kIdx r) (A.liveColIds v)
        A.nextVersion)).insertionSort outPosLE =
      (A.checkoutRows v).enum.map (fun p =>
        (⟨p.2.rowId, ((p.1 : Nat) : Int), p.2.values⟩ : OutRow)) :=
    List.eq_of_perm_of_sorted hpermIS hMstrict hL'pos
  -- the filter over the updated rows keeps exactly the rows live at v
  have hfilter : (A.rows.map (updOf A v kIdx)).filter
      (fun r => r.ts.contains A.nextVersion) =
      (A.rows.filter (fun r => r.ts.contains v)).map (updOf A v kIdx) := by
    rw [List.filter_map]
    congr 1
    apply List.filter_congr
    intro r hr
    show (updOf A v kIdx r).ts.contains A.nextVersion = r.ts.contains v
    have hBr := hB r hr
    simp only [rowBelow, Bool.and_eq_true] at hBr
    rcases hlv : r.ts.contains v with _ | _
    · have hid : updOf A v kIdx r = r := by
        unfold updOf
        rw [h_dead r hr hlv]
      rw [hid]
      exact tsBelow_contains_false _ _ hBr.1.1 _ (le_refl _)
    · obtain ⟨k, hk, hfind⟩ := h_live r hr hlv
      have hupd2 : updOf A v kIdx r = updateRow r
          (⟨none, k, r.key, (A.liveColIds v).zip
            (rowAt r (A.liveColIds v) v).values⟩ : DocRow) A.nextVersion := by
        unfold updOf
        rw [hfind]
      rw [hupd2]
      exact Timestamp.append_contains_self _ _ hBr.1.1
  -- assemble
  refine ⟨_, hcommit, rfl, rfl, ?_, hgrowth⟩
  show Archive.checkout _ A.nextVersion = A.checkout v
  simp only [Archive.checkout, Archive.checkoutRows, Archive.liveColIds]
  rw [hAl2, hfilter, List.map_map]
  have hcomp : ((A.rows.filter (fun r => r.ts.contains v)).map
      ((fun r => rowAt r (A.liveColIds v) A.nextVersion) ∘
        updOf A v kIdx)).insertionSort outPosLE =
      (A.checkoutRows v).enum.map (fun p =>
        (⟨p.2.rowId, ((p.1 : Nat) : Int), p.2.values⟩ : OutRow)) := heqsort
  rw [hcomp, List.map_map]
  show (A.checkoutRows v).enum.map (fun p => (p.2.rowId, p.2.values)) =
    A.checkout v
  have hstep : ((A.checkoutRows v).enum.map Prod.snd).map
      (fun o => (o.rowId, o.values)) =
      (A.checkoutRows v).enum.map (fun p => (p.2.rowId, p.2.values)) := by
    rw [List.map_map]
    rfl
  rw [← hstep, List.enum_map_snd]
  rfl

set_option maxHeartbeats 1000000 in
/-- C7 witness: the round-trip preconditions hold for the keyed worked
example at version 1, and the theorem applies there. -/
theorem claim_C7_witness : C7Pre scenarioA "Name" 1 0 ∧
    (∃ A1, recommit scenarioA "Name" 1 = .ok A1 ∧
      A1.snapshots = scenarioA.snapshots ++ [scenarioA.nextVersion] ∧
      A1.nextVersion = scenarioA.nextVersion + 1 ∧
      A1.checkout scenarioA.nextVersion = scenarioA.checkout 1 ∧
      ∀ r1 ∈ A1.rows, ∃ r ∈ scenarioA.rows, r1.rowId = r.rowId ∧
        ∀ c m1, (c, m1) ∈ r1.cells → ∃ m, (c, m) ∈ r.cells ∧
          List.Forall₂ (fun tv1 tv => tv1.value = tv.value ∧
            (tv1.ts = tv.ts ∨ tv1.ts = tv.ts.append scenarioA.nextVersion))
            m1 m) :=
  ⟨by decide, claim_C7 scenarioA "Name" 1 0 (by decide)⟩

end HiStore
